import Mathlib

/-!
Shallow embedding of `src/Milestone1.py` (a same-domain web crawler with
retry logic) together with the parts of CPython 3.11's `urllib.parse`
(`urlsplit`, `urlunsplit`, `urlparse`, `urlunparse`, `urljoin`) and of
`re.findall(r'href=["\'](.*?)["\']', …)` that the crawler uses.

URLs are modelled as `List Char`; `String`-level wrappers mirror the
Python API used by the crawler.  The model is total: the library's
`ValueError` paths (unbalanced square brackets in an IPv6 authority and
the non-ASCII NFKC netloc check) are outside the model, which is scoped
to bracket-free ASCII URLs, and `str.lower`/`str.strip` are modelled at
ASCII precision.
-/

namespace Milestone1

/-- Python whitespace stripped by `str.strip()` (ASCII part). -/
def isPySpace (c : Char) : Bool :=
  c = ' ' || c = '\t' || c = '\n' || c = '\r' || c = '\x0b' || c = '\x0c'

/-- Python `s.strip()` (ASCII scope). -/
def stripL (l : List Char) : List Char :=
  ((l.dropWhile isPySpace).reverse.dropWhile isPySpace).reverse

/-- Python `s.rstrip("/")`: remove **all** trailing `'/'` characters. -/
def rstripSlashL (l : List Char) : List Char :=
  (l.reverse.dropWhile (fun c => c = '/')).reverse

/-- Python `s.split(sep, 1)` when `sep in s`: split at the first
occurrence of `c`; `none` when `c` does not occur. -/
def splitOnce (c : Char) : List Char → Option (List Char × List Char)
  | [] => none
  | x :: xs =>
    if x = c then some ([], xs)
    else (splitOnce c xs).map (fun p => (x :: p.1, p.2))

/-- Split at the last occurrence of `c` (used for `url.rfind('/')` in
`_splitparams`). -/
def splitLast (c : Char) (l : List Char) : Option (List Char × List Char) :=
  (splitOnce c l.reverse).map (fun p => (p.2.reverse, p.1.reverse))

/-- `scheme_chars` from `urllib.parse`. -/
def schemeChars : List Char :=
  "abcdefghijklmnopqrstuvwxyzABCDEFGHIJKLMNOPQRSTUVWXYZ0123456789+-.".toList

/-- The delimiters terminating the authority in `_splitnetloc`. -/
def isNetlocEnd (c : Char) : Bool := c = '/' || c = '?' || c = '#'

/-- `uses_relative` from `urllib.parse`. -/
def usesRelative : List (List Char) :=
  ["", "ftp", "http", "gopher", "nntp", "imap", "wais", "file", "https",
   "shttp", "mms", "prospero", "rtsp", "rtspu", "sftp", "svn", "svn+ssh",
   "ws", "wss"].map String.toList

/-- `uses_netloc` from `urllib.parse`. -/
def usesNetloc : List (List Char) :=
  ["", "ftp", "http", "gopher", "nntp", "telnet", "imap", "wais", "file",
   "mms", "https", "shttp", "snews", "prospero", "rtsp", "rtspu", "rsync",
   "svn", "svn+ssh", "sftp", "nfs", "git", "git+ssh", "ws", "wss"].map
    String.toList

/-- `uses_params` from `urllib.parse`. -/
def usesParams : List (List Char) :=
  ["", "ftp", "hdl", "prospero", "http", "imap", "https", "shttp", "rtsp",
   "rtspu", "sip", "sips", "mms", "sftp", "tel"].map String.toList

/-- `urlsplit` removes `'\t'`, `'\r'`, `'\n'` (WHATWG unsafe bytes). -/
def removeUnsafeBytes (l : List Char) : List Char :=
  l.filter (fun c => !(c = '\t' || c = '\r' || c = '\n'))

/-- `_WHATWG_C0_CONTROL_OR_SPACE`: code points `0x00`–`0x20`. -/
def isC0OrSpace (c : Char) : Bool := c.toNat ≤ 32

/-- `url.lstrip(_WHATWG_C0_CONTROL_OR_SPACE)` (3.11.6 `urlsplit`). -/
def lstripC0 (l : List Char) : List Char := l.dropWhile isC0OrSpace

/-- `scheme.strip(_WHATWG_C0_CONTROL_OR_SPACE)` (3.11.6 `urlsplit`). -/
def stripC0 (l : List Char) : List Char :=
  ((l.dropWhile isC0OrSpace).reverse.dropWhile isC0OrSpace).reverse

structure SplitResult where
  scheme : List Char
  netloc : List Char
  path : List Char
  query : List Char
  fragment : List Char
deriving Repr, DecidableEq

/-- The scheme-extraction step of `urlsplit`: a scheme is recognised when
there is a `':'` at position `i > 0`, the first character is an ASCII
letter and every character before the `':'` is in `scheme_chars`; the
recognised scheme is lower-cased.  Otherwise the default applies. -/
def splitScheme (dflt l : List Char) : List Char × List Char :=
  match splitOnce ':' l with
  | some (sc, post) =>
    if sc ≠ [] ∧ sc.head?.any Char.isAlpha ∧ sc.all schemeChars.contains then
      (sc.map Char.toLower, post)
    else (dflt, l)
  | none => (dflt, l)

/-- `_splitnetloc url 2`: the authority runs to the first `/`, `?` or `#`. -/
def splitNetloc (l : List Char) : List Char × List Char :=
  (l.takeWhile (fun c => !isNetlocEnd c), l.dropWhile (fun c => !isNetlocEnd c))

/-- The fragment then query splits of `urlsplit`, producing
`(path, query, fragment)`. -/
def splitFragmentQuery (mid : List Char) : List Char × List Char × List Char :=
  match splitOnce '#' mid with
  | some (bf, frag) =>
    (match splitOnce '?' bf with
     | some (pa, qu) => (pa, qu, frag)
     | none => (bf, [], frag))
  | none =>
    match splitOnce '?' mid with
    | some (pa, qu) => (pa, qu, [])
    | none => (mid, [], [])

/-- The stages of `urlsplit` that follow scheme extraction. -/
def postSchemeSplit (scheme rest : List Char) : SplitResult :=
  let np := if rest.take 2 = ['/', '/'] then splitNetloc (rest.drop 2) else ([], rest)
  let pqf := splitFragmentQuery np.2
  ⟨scheme, np.1, pqf.1, pqf.2.1, pqf.2.2⟩

/-- CPython 3.11.6 `urlsplit(url, scheme)` with `allow_fragments=True`
(the only form the crawler uses). -/
def urlsplit (url0 dflt0 : List Char) : SplitResult :=
  let url1 := removeUnsafeBytes (lstripC0 url0)
  let dflt := removeUnsafeBytes (stripC0 dflt0)
  let sp := splitScheme dflt url1
  postSchemeSplit sp.1 sp.2

/-- `if url and url[:1] != '/': url = '/' + url` in `urlunsplit`. -/
def fixSlash (p : List Char) : List Char :=
  if p ≠ [] ∧ p.take 1 ≠ ['/'] then '/' :: p else p

/-- CPython 3.11 `urlunsplit`. -/
def urlunsplit (c : SplitResult) : List Char :=
  let url :=
    if c.netloc ≠ [] ∨ (c.scheme ≠ [] ∧ c.scheme ∈ usesNetloc ∧ c.path.take 2 ≠ ['/', '/']) then
      '/' :: '/' :: (c.netloc ++ fixSlash c.path)
    else c.path
  let url := if c.scheme ≠ [] then c.scheme ++ ':' :: url else url
  let url := if c.query ≠ [] then url ++ '?' :: c.query else url
  if c.fragment ≠ [] then url ++ '#' :: c.fragment else url

structure ParseResult where
  scheme : List Char
  netloc : List Char
  path : List Char
  params : List Char
  query : List Char
  fragment : List Char
deriving Repr, DecidableEq

/-- `_splitparams`: split `;params` off the last path segment. -/
def splitparams (url : List Char) : List Char × List Char :=
  match splitLast '/' url with
  | some (front, lastSeg) =>
    match splitOnce ';' lastSeg with
    | some (a, b) => (front ++ '/' :: a, b)
    | none => (url, [])
  | none =>
    match splitOnce ';' url with
    | some (a, b) => (a, b)
    | none => (url, [])

/-- CPython 3.11 `urlparse(url, scheme)` with `allow_fragments=True`. -/
def urlparse (url dflt : List Char) : ParseResult :=
  let s := urlsplit url dflt
  if s.scheme ∈ usesParams ∧ ';' ∈ s.path then
    let p := splitparams s.path
    ⟨s.scheme, s.netloc, p.1, p.2, s.query, s.fragment⟩
  else ⟨s.scheme, s.netloc, s.path, [], s.query, s.fragment⟩

/-- CPython 3.11 `urlunparse`. -/
def urlunparse (c : ParseResult) : List Char :=
  let url := if c.params ≠ [] then c.path ++ ';' :: c.params else c.path
  urlunsplit ⟨c.scheme, c.netloc, url, c.query, c.fragment⟩

/-- The `;params` split of `urlparse` composed with the rejoin performed
by `geturl`: the identity on every path except one whose last segment
carries a single trailing `';'`, which is dropped. -/
def paramsRejoin (s p : List Char) : List Char :=
  if s ∈ usesParams ∧ ';' ∈ p then
    let pr := splitparams p
    if pr.2 ≠ [] then pr.1 ++ ';' :: pr.2 else pr.1
  else p

/-- The last `'/'`-separated segment of a path (the whole path when it
has no slash); `_splitparams` only ever inspects this segment. -/
def lastSeg (l : List Char) : List Char :=
  match splitLast '/' l with
  | some pr => pr.2
  | none => l

/-- The shape of a scheme string as `urlsplit` reports it: non-empty,
initial ASCII letter, all of `scheme_chars`, already lower-case. -/
def validLowerScheme (s : List Char) : Prop :=
  s ≠ [] ∧ s.head?.any Char.isAlpha = true ∧ s.all schemeChars.contains = true ∧
    s.map Char.toLower = s

/-- A URL whose authority marker `//` a reparse-and-rebuild loses: either
an empty authority under a scheme outside `uses_netloc`, or a
`uses_netloc` scheme followed by four slashes (whose rebuild collapses
two of them). -/
def dropsAuthorityMarker (o : List Char) : Prop :=
  ((splitScheme [] o).1 ∉ usesNetloc ∧ (splitScheme [] o).2.take 2 = ['/', '/'] ∧
    (urlsplit o []).netloc = []) ∨
  ((splitScheme [] o).1 ∈ usesNetloc ∧
    (splitScheme [] o).2.take 4 = ['/', '/', '/', '/'])

instance decValidLowerScheme (s : List Char) : Decidable (validLowerScheme s) := by
  unfold validLowerScheme
  infer_instance

instance decDropsAuthorityMarker (o : List Char) : Decidable (dropsAuthorityMarker o) := by
  unfold dropsAuthorityMarker
  infer_instance

/-- Python `str.split('/')` (splits at every occurrence, keeping empty
parts; the result is always non-empty). -/
def splitAll (c : Char) : List Char → List (List Char)
  | [] => [[]]
  | x :: xs =>
    let r := splitAll c xs
    if x = c then [] :: r
    else
      match r with
      | h :: t => (x :: h) :: t
      | [] => [[x]]

/-- `segments[1:-1] = filter(None, segments[1:-1])` in `urljoin`: drop
empty segments, keeping the first and last elements. -/
def filterMiddleSegs (l : List (List Char)) : List (List Char) :=
  match l with
  | [] => []
  | [a] => [a]
  | a :: rest => a :: (rest.dropLast.filter (fun s => s ≠ []) ++ [rest.getLastD []])

/-- The `'.'`/`'..'` resolution loop of `urljoin` (a `'..'` on an empty
stack is ignored, as the `except IndexError: pass` does). -/
def resolveSegs (segs : List (List Char)) : List (List Char) :=
  segs.foldl (fun acc seg =>
    if seg = ['.', '.'] then acc.dropLast
    else if seg = ['.'] then acc
    else acc ++ [seg]) []

/-- The segment list `urljoin` resolves (base segments merged with the
relative path, or the absolute path alone). -/
def joinSegments (bpath upath : List Char) : List (List Char) :=
  let baseParts0 := splitAll '/' bpath
  let baseParts := if baseParts0.getLastD [] ≠ [] then baseParts0.dropLast else baseParts0
  if upath.take 1 = ['/'] then splitAll '/' upath
  else filterMiddleSegs (baseParts ++ splitAll '/' upath)

/-- The dot-segment resolution of `urljoin` (the branch that merges the
base path with a relative path), factored out of `urljoin`. -/
def joinPath (bpath upath : List Char) : List Char :=
  let segments := joinSegments bpath upath
  let resolved0 := resolveSegs segments
  let resolved :=
    if segments.getLastD [] = ['.'] ∨ segments.getLastD [] = ['.', '.'] then
      resolved0 ++ [[]]
    else resolved0
  let path0 := List.intercalate ['/'] resolved
  if path0 = [] then ['/'] else path0

/-- CPython 3.11 `urljoin(base, url)`. -/
def urljoin (base url : List Char) : List Char :=
  if base = [] then url
  else if url = [] then base
  else
    let b := urlparse base []
    let u := urlparse url b.scheme
    if u.scheme ≠ b.scheme ∨ u.scheme ∉ usesRelative then url
    else if u.scheme ∈ usesNetloc ∧ u.netloc ≠ [] then urlunparse u
    else
      let netloc := if u.scheme ∈ usesNetloc then b.netloc else u.netloc
      if u.path = [] ∧ u.params = [] then
        urlunparse ⟨u.scheme, netloc, b.path, b.params,
          (if u.query = [] then b.query else u.query), u.fragment⟩
      else
        urlunparse ⟨u.scheme, netloc, joinPath b.path u.path, u.params, u.query,
          u.fragment⟩

/-- `get_domain` (Milestone1.py line 22): `urlparse(url).netloc.lower()`. -/
def get_domain (url : String) : String :=
  String.mk ((urlparse url.toList []).netloc.map Char.toLower)

/-- `urlparse(abs_link)._replace(fragment="").geturl()` (line 80). -/
def defragmentL (u : List Char) : List Char :=
  let p := urlparse u []
  urlunparse ⟨p.scheme, p.netloc, p.path, p.params, p.query, []⟩

/-- The normalization pipeline of `extract_links` (lines 77–83): resolve
against the base, strip the fragment, then `rstrip("/")`. -/
def normalizeL (base link : List Char) : List Char :=
  rstripSlashL (defragmentL (urljoin base link))

/-- `String`-level wrapper for the normalization pipeline. -/
def normalizeLink (base link : String) : String :=
  String.mk (normalizeL base.toList link.toList)

/-- Characters `urlsplit` never deletes (everything except tab/CR/LF). -/
def goodChars (l : List Char) : Prop :=
  ∀ c ∈ l, ¬(c = '\t' ∨ c = '\r' ∨ c = '\n')

/-- Everything `urlunsplit` emits after the `scheme:` prefix, written
without `let` bindings: the netloc/path block, then the optional query
and fragment suffixes. -/
def unsplitBody (c : SplitResult) : List Char :=
  (if c.netloc ≠ [] ∨ (c.scheme ≠ [] ∧ c.scheme ∈ usesNetloc ∧ c.path.take 2 ≠ ['/', '/'])
    then '/' :: '/' :: (c.netloc ++ fixSlash c.path) else c.path) ++
  (if c.query ≠ [] then '?' :: c.query else []) ++
  (if c.fragment ≠ [] then '#' :: c.fragment else [])

def isQuote (c : Char) : Bool := c = '"' || c = '\''

/-- After `href=` and an opening quote, the lazy group `(.*?)["\']`
captures up to the first `"` or `'`; `.` does not match a newline, so a
newline before any closing quote makes the match attempt fail. -/
def captureHref : List Char → Option (List Char × List Char)
  | [] => none
  | c :: cs =>
    if isQuote c then some ([], cs)
    else if c = '\n' then none
    else (captureHref cs).map (fun p => (c :: p.1, p.2))

theorem captureHref_rest_lt : ∀ l a b, captureHref l = some (a, b) → b.length < l.length := by
  intro l
  induction l with
  | nil => intro a b h; simp [captureHref] at h
  | cons c cs ih =>
    intro a b h
    simp only [captureHref] at h
    split at h
    · simp only [Option.some.injEq, Prod.mk.injEq] at h
      obtain ⟨h1, h2⟩ := h
      subst h2
      simp
    · split at h
      · cases h
      · rw [Option.map_eq_some'] at h
        obtain ⟨p, h1, h2⟩ := h
        obtain ⟨a1, b1⟩ := p
        simp only [Prod.mk.injEq] at h2
        obtain ⟨h2a, h2b⟩ := h2
        subst h2b
        have := ih a1 b1 h1
        simp only [List.length_cons]
        omega

/-- Structural worker for the scan below; the fuel argument only makes
the recursion structural (each call strictly shortens the list, so fuel
`l.length` never runs out — see `findHrefsAux_fuel`). -/
def findHrefsAux : Nat → List Char → List (List Char)
  | 0, _ => []
  | _, [] => []
  | fuel + 1, c :: cs =>
    if (c :: cs).take 5 = "href=".toList ∧ ((c :: cs).drop 5).head?.any isQuote then
      match captureHref ((c :: cs).drop 6) with
      | some (cap, rest) => cap :: findHrefsAux fuel rest
      | none => findHrefsAux fuel cs
    else findHrefsAux fuel cs

/-- `re.findall(r'href=["\'](.*?)["\']', s)`: scan left to right; at each
position try to match `href=` + quote + lazy capture + quote; on success
continue after the closing quote, on failure advance one character. -/
def findHrefs (l : List Char) : List (List Char) :=
  findHrefsAux l.length l

/-- The fuel argument of `findHrefsAux` is irrelevant as long as it
bounds the list length, so `findHrefs` is the natural fixpoint. -/
theorem findHrefsAux_fuel : ∀ fuel l, l.length ≤ fuel →
    findHrefsAux fuel l = findHrefsAux l.length l := by
  have key : ∀ fuel, ∀ f2 l, l.length ≤ fuel → l.length ≤ f2 →
      findHrefsAux fuel l = findHrefsAux f2 l := by
    intro fuel
    induction fuel with
    | zero =>
      intro f2 l h1 _
      have : l = [] := List.length_eq_zero.mp (Nat.le_zero.mp h1)
      subst this
      cases f2 <;> rfl
    | succ n ih =>
      intro f2 l h1 h2
      match l with
      | [] => cases f2 <;> rfl
      | c :: cs =>
        match f2 with
        | 0 => simp at h2
        | m + 1 =>
          simp only [List.length_cons] at h1 h2
          simp only [findHrefsAux]
          split_ifs with hP
          · rcases hcap : captureHref ((c :: cs).drop 6) with _ | ⟨cap, rest⟩
            · simp only [hcap]
              exact ih m cs (by omega) (by omega)
            · simp only [hcap]
              have hlt := captureHref_rest_lt _ _ _ hcap
              simp only [List.length_drop, List.length_cons] at hlt
              rw [ih m rest (by omega) (by omega)]
          · exact ih m cs (by omega) (by omega)
  intro fuel l h
  exact key fuel l.length l h le_rfl

/-- `found.add(...)` on a Python `set`, determinised to first-insertion
order (the claims below do not depend on the unspecified iteration order
of `list(found)`). -/
def insertIfNew (acc : List (List Char)) (x : List Char) : List (List Char) :=
  if x ∈ acc then acc else acc ++ [x]

/-- `extract_links` (Milestone1.py lines 59–89). -/
def extract_links (html base_url : String) : List String :=
  let raw := findHrefs html.toList
  let found := raw.foldl (fun acc link0 =>
    let link := stripL link0
    if link = [] then acc
    else if link.take 1 = ['#'] ∨ link.take 7 = "mailto:".toList ∨
        link.take 11 = "javascript:".toList ∨ link.take 4 = "tel:".toList then acc
    else
      let abs := normalizeL base_url.toList link
      if abs.take 7 = "http://".toList ∨ abs.take 8 = "https://".toList then
        insertIfNew acc abs
      else acc) []
  found.map String.mk

/-- The outcome of the single network request made by one `fetch_page`
call: either an HTTP response with a status code and a body, or a
request-layer fault (timeout, connection error, DNS failure, TLS error —
anything `requests` raises as a `RequestException`). -/
inductive HttpAttempt where
  | response (status : Nat) (body : String)
  | exception
deriving Repr, DecidableEq

/-- `fetch_page` (lines 34–55), as a function of the outcome of its one
network request; the pair is `(html, status)` as returned to the loop. -/
def fetch_page (a : HttpAttempt) : Option String × String :=
  match a with
  | .response status body =>
    if status = 200 then (some body, "ok")
    else if 500 ≤ status ∧ status < 600 then (none, "transient")
    else (none, "permanent")
  | .exception => (none, "transient")

/-- The crawl configuration (lines 91–94); `retry_delay` and the
politeness sleep have no observable effect on the model's state. -/
structure Config where
  seed_url : String
  max_pages : Nat
  max_retries : Nat

/-- The mutable loop state (lines 101–106).  `visited_set` mirrors the
`visited` list element-for-element in the source, so membership in it is
modelled as membership in `visited`.  `fetches` counts `fetch_page`
calls so that the network oracle may vary over time. -/
structure CrawlState where
  queue : List String
  visited : List String
  retries : List (String × Nat)
  failed : List String
  page_id : Nat
  fetches : Nat
deriving Repr, DecidableEq

/-- `retries.get(url, 0)`. -/
def lookupRetry : List (String × Nat) → String → Nat
  | [], _ => 0
  | p :: rest, k => if p.1 = k then p.2 else lookupRetry rest k

/-- `retries[url] = count`. -/
def setRetry : List (String × Nat) → String → Nat → List (String × Nat)
  | [], k, v => [(k, v)]
  | p :: rest, k, v => if p.1 = k then (k, v) :: rest else p :: setRetry rest k v

/-- `failed.add(url)` on a Python `set` (first-insertion order). -/
def addFailed (failed : List String) (u : String) : List String :=
  if u ∈ failed then failed else failed ++ [u]

/-- The link-enqueueing loop of the success branch (lines 139–143):
same-domain filter, then append if not visited and not already queued
(checked against the growing queue, as the Python `in` test is). -/
def enqueueLinks (seedDomain : String) (visited q0 : List String)
    (links : List String) : List String :=
  links.foldl (fun q link =>
    if get_domain link ≠ seedDomain then q
    else if link ∉ visited ∧ link ∉ q then q ++ [link]
    else q) q0

/-- Lines 99–106: the initial state, with the seed `rstrip("/")`-ed. -/
def initState (cfg : Config) : CrawlState :=
  ⟨[String.mk (rstripSlashL cfg.seed_url.toList)], [], [], [], 1, 0⟩

/-- The transient-failure branch (lines 146–155). -/
def transientCase (cfg : Config) (s1 : CrawlState) (url : String) : CrawlState × Bool :=
  let count := lookupRetry s1.retries url + 1
  if count ≤ cfg.max_retries then
    ({ s1 with retries := setRetry s1.retries url count, queue := s1.queue ++ [url] }, false)
  else ({ s1 with failed := addFailed s1.failed url }, false)

/-- One iteration of the main loop body (lines 115–163).  `net` gives
the outcome of the `i`-th network request; `diskFail k` says whether
writing `pages/k.html` raises.  The second component is `true` when the
iteration raises an uncaught exception (the unguarded `open`/`write` of
lines 129–130), in which case the state is as at the raise point. -/
def step (cfg : Config) (net : Nat → String → HttpAttempt) (diskFail : Nat → Bool)
    (s : CrawlState) : CrawlState × Bool :=
  match s.queue with
  | [] => (s, false)
  | url :: rest =>
    if url ∈ s.visited then ({ s with queue := rest }, false)
    else
      let fp := fetch_page (net s.fetches url)
      let s1 : CrawlState := { s with queue := rest, fetches := s.fetches + 1 }
      match fp.1, fp.2 with
      | some html, status =>
        if status = "ok" then
          if diskFail s1.page_id then (s1, true)
          else
            let visited := s1.visited ++ [url]
            let queue := enqueueLinks (get_domain cfg.seed_url) visited s1.queue
              (extract_links html url)
            ({ s1 with queue := queue, visited := visited, page_id := s1.page_id + 1 }, false)
        else if status = "transient" then transientCase cfg s1 url
        else ({ s1 with failed := addFailed s1.failed url }, false)
      | none, status =>
        if status = "transient" then transientCase cfg s1 url
        else ({ s1 with failed := addFailed s1.failed url }, false)

/-- `while queue and len(visited) < max_pages` (line 112), run for at
most `n` iterations; the boolean reports an uncaught exception. -/
def crawlN (cfg : Config) (net : Nat → String → HttpAttempt) (diskFail : Nat → Bool) :
    Nat → CrawlState → CrawlState × Bool
  | 0, s => (s, false)
  | n + 1, s =>
    if s.queue ≠ [] ∧ s.visited.length < cfg.max_pages then
      match step cfg net diskFail s with
      | (s1, true) => (s1, true)
      | (s1, false) => crawlN cfg net diskFail n s1
    else (s, false)

/-- The end-of-run output (lines 166–182): the `visited.txt` manifest
and the printed summary.  `none` models the program dying on an uncaught
exception before reaching this code. -/
structure RunSummary where
  visitedUrls : List String
  pages : Nat
  failedCount : Nat
  queueSize : Nat
deriving Repr, DecidableEq

def runCrawl (cfg : Config) (net : Nat → String → HttpAttempt) (diskFail : Nat → Bool)
    (fuel : Nat) : Option RunSummary :=
  let r := crawlN cfg net diskFail fuel (initState cfg)
  if r.2 then none
  else some ⟨r.1.visited, r.1.visited.length, r.1.failed.length, r.1.queue.length⟩

/-! ### Concrete scenarios used by witnesses and counterexamples -/

/-- A page body holding the four hyperlinks of the link-extraction test. -/
def c6Html : String :=
  "<a href=\"#top\"></a><a href=\"mailto:a@b.com\"></a><a href=\"/x\"></a><a href=\"http://other.example/y\"></a>"

/-- A network where every request raises (always-transient). -/
def netDown : Nat → String → HttpAttempt := fun _ _ => .exception

/-- A network where every request returns `200` with an empty, link-free
body. -/
def netEmptyOk : Nat → String → HttpAttempt := fun _ _ => .response 200 ""

/-- A disk that never fails. -/
def diskOk : Nat → Bool := fun _ => false

def cfgA : Config := ⟨"http://a.example", 5, 3⟩

/-- Scenario for the queue/failed overlap: the seed links to `/u` and
`/v`; `/u` is a permanent 404; `/v` links back to `/u`. -/
def cfgSeedUV : Config := ⟨"http://seed.example/a", 20, 3⟩

def htmlUV : String := "<a href=\"/u\"></a><a href=\"/v\"></a>"

def htmlU : String := "<a href=\"/u\"></a>"

def netUV : Nat → String → HttpAttempt := fun _ url =>
  if url = "http://seed.example/a" then .response 200 htmlUV
  else if url = "http://seed.example/v" then .response 200 htmlU
  else .response 404 ""

/-- A queue state about to fetch a transiently-failing URL. -/
def stateT : CrawlState := ⟨["http://a.example"], [], [], [], 1, 0⟩

/-! ### Invariants and termination measure -/

/-- The queue never holds duplicates, and never holds a visited target. -/
def QInv (s : CrawlState) : Prop :=
  s.queue.Nodup ∧ ∀ u ∈ s.queue, u ∉ s.visited

/-- Retry potential of one queue entry: `1` for its pending fetch plus
one for every retry it may still be granted. -/
def retryWeight (maxR : Nat) (retries : List (String × Nat)) (u : String) : Nat :=
  1 + (maxR - lookupRetry retries u)

/-- Total retry potential of the queue; it strictly decreases on every
iteration that does not grow `visited`. -/
def qweight (cfg : Config) (s : CrawlState) : Nat :=
  (s.queue.map (retryWeight cfg.max_retries s.retries)).sum

end Milestone1

namespace Milestone1

/-! ### Basic facts about `fetch_page` -/

theorem fetch_page_status_cases (a : HttpAttempt) :
    (fetch_page a).2 = "ok" ∨ (fetch_page a).2 = "transient" ∨
      (fetch_page a).2 = "permanent" := by
  cases a with
  | response status body =>
    by_cases h200 : status = 200
    · simp [fetch_page, h200]
    · by_cases h5 : 500 ≤ status ∧ status < 600
      · simp [fetch_page, h200, h5]
      · simp [fetch_page, h200, h5]
  | exception => simp [fetch_page]

theorem fetch_page_some_iff (a : HttpAttempt) :
    (fetch_page a).1.isSome ↔ (fetch_page a).2 = "ok" := by
  cases a with
  | response status body =>
    by_cases h200 : status = 200
    · simp [fetch_page, h200]
    · by_cases h5 : 500 ≤ status ∧ status < 600
      · simp [fetch_page, h200, h5]
      · simp [fetch_page, h200, h5]
  | exception => simp [fetch_page]

theorem fetch_page_not_ok_none (a : HttpAttempt) (h : (fetch_page a).2 ≠ "ok") :
    (fetch_page a).1 = none := by
  have h2 := fetch_page_some_iff a
  rcases hx : (fetch_page a).1 with _ | b
  · rfl
  · rw [hx] at h2
    simp at h2
    exact absurd h2 h

theorem fetch_page_ok_some (a : HttpAttempt) (h : (fetch_page a).2 = "ok") :
    ∃ b, (fetch_page a).1 = some b := by
  have h2 := (fetch_page_some_iff a).mpr h
  rcases hx : (fetch_page a).1 with _ | b
  · rw [hx] at h2; simp at h2
  · exact ⟨b, rfl⟩

/-! ### Branch equations for `step` -/

theorem step_skip (cfg : Config) (net : Nat → String → HttpAttempt) (df : Nat → Bool)
    (s : CrawlState) (url : String) (rest : List String)
    (hq : s.queue = url :: rest) (hv : url ∈ s.visited) :
    step cfg net df s = ({ s with queue := rest }, false) := by
  unfold step
  rw [hq]
  simp [hv]

theorem step_success (cfg : Config) (net : Nat → String → HttpAttempt) (df : Nat → Bool)
    (s : CrawlState) (url : String) (rest : List String) (html : String)
    (hq : s.queue = url :: rest) (hv : url ∉ s.visited)
    (hb : (fetch_page (net s.fetches url)).1 = some html)
    (hst : (fetch_page (net s.fetches url)).2 = "ok")
    (hdf : df s.page_id = false) :
    step cfg net df s =
      ({ s with
          queue := enqueueLinks (get_domain cfg.seed_url) (s.visited ++ [url]) rest
            (extract_links html url)
          visited := s.visited ++ [url]
          page_id := s.page_id + 1
          fetches := s.fetches + 1 }, false) := by
  unfold step
  rw [hq]
  simp only [hv, if_neg, ite_false, reduceIte]
  rw [hb, hst]
  simp [hdf]

theorem step_crash (cfg : Config) (net : Nat → String → HttpAttempt) (df : Nat → Bool)
    (s : CrawlState) (url : String) (rest : List String) (html : String)
    (hq : s.queue = url :: rest) (hv : url ∉ s.visited)
    (hb : (fetch_page (net s.fetches url)).1 = some html)
    (hst : (fetch_page (net s.fetches url)).2 = "ok")
    (hdf : df s.page_id = true) :
    step cfg net df s = ({ s with queue := rest, fetches := s.fetches + 1 }, true) := by
  unfold step
  rw [hq]
  simp only [hv, if_neg, ite_false, reduceIte]
  rw [hb, hst]
  simp [hdf]

theorem step_transient (cfg : Config) (net : Nat → String → HttpAttempt) (df : Nat → Bool)
    (s : CrawlState) (url : String) (rest : List String)
    (hq : s.queue = url :: rest) (hv : url ∉ s.visited)
    (ht : (fetch_page (net s.fetches url)).2 = "transient") :
    step cfg net df s =
      transientCase cfg { s with queue := rest, fetches := s.fetches + 1 } url := by
  have hb : (fetch_page (net s.fetches url)).1 = none :=
    fetch_page_not_ok_none _ (by rw [ht]; decide)
  unfold step
  rw [hq]
  simp only [hv, if_neg, ite_false, reduceIte]
  rw [hb, ht]
  simp

theorem step_permanent (cfg : Config) (net : Nat → String → HttpAttempt) (df : Nat → Bool)
    (s : CrawlState) (url : String) (rest : List String)
    (hq : s.queue = url :: rest) (hv : url ∉ s.visited)
    (hp : (fetch_page (net s.fetches url)).2 = "permanent") :
    step cfg net df s =
      ({ s with
          queue := rest
          fetches := s.fetches + 1
          failed := addFailed s.failed url }, false) := by
  have hb : (fetch_page (net s.fetches url)).1 = none :=
    fetch_page_not_ok_none _ (by rw [hp]; decide)
  unfold step
  rw [hq]
  simp only [hv, if_neg, ite_false, reduceIte]
  rw [hb, hp]
  simp

/-! ### Retry-dictionary lemmas -/

theorem lookupRetry_setRetry (m : List (String × Nat)) (k : String) (v : Nat) (x : String) :
    lookupRetry (setRetry m k v) x = if x = k then v else lookupRetry m x := by
  induction m with
  | nil =>
    by_cases hx : x = k
    · subst hx; simp [setRetry, lookupRetry]
    · simp [setRetry, lookupRetry, hx, Ne.symm hx]
  | cons p rest ih =>
    by_cases hp : p.1 = k
    · by_cases hx : x = k
      · subst hx; simp [setRetry, lookupRetry, hp]
      · simp [setRetry, lookupRetry, hp, hx, Ne.symm hx]
    · by_cases hpx : p.1 = x
      · have hxk : ¬ x = k := fun hh => hp (hpx.trans hh)
        simp [setRetry, lookupRetry, hp, hpx, hxk]
      · simp only [setRetry, if_neg hp, lookupRetry, if_neg hpx]
        exact ih

theorem head?_dropWhile_not (p : Char → Bool) :
    ∀ l c, (List.dropWhile p l).head? = some c → p c = false := by
  intro l
  induction l with
  | nil => intro c h; simp [List.dropWhile] at h
  | cons a as ih =>
    intro c h
    by_cases hp : p a
    · simp only [List.dropWhile, hp] at h
      exact ih c h
    · simp only [List.dropWhile, Bool.not_eq_true] at h hp
      rw [hp] at h
      simp at h
      rw [← h]
      exact hp

theorem rstripSlashL_getLast (l : List Char) : (rstripSlashL l).getLast? ≠ some '/' := by
  unfold rstripSlashL
  rw [List.getLast?_reverse]
  intro h
  have := head?_dropWhile_not _ _ _ h
  simp at this

/-- `crawlN` reporting an uncaught exception means `runCrawl` produces
no summary. -/
theorem runCrawl_none_of_crash (cfg : Config) (net : Nat → String → HttpAttempt)
    (df : Nat → Bool) (fuel : Nat)
    (h : (crawlN cfg net df fuel (initState cfg)).2 = true) :
    runCrawl cfg net df fuel = none := by
  unfold runCrawl
  simp [h]

/-! ## Claim theorems -/

/-- C2: a single fetch attempt is classified by `fetch_page` as: HTTP
status 200 → success carrying the response body; status in [500,600) →
transient failure; any other status → permanent failure; any
network-layer fault (a raised `RequestException`) → transient failure. -/
theorem fetch_classification (status : Nat) (body : String) :
    (status = 200 → fetch_page (.response status body) = (some body, "ok")) ∧
    (500 ≤ status → status < 600 → fetch_page (.response status body) = (none, "transient")) ∧
    (status ≠ 200 → ¬(500 ≤ status ∧ status < 600) →
      fetch_page (.response status body) = (none, "permanent")) ∧
    fetch_page .exception = (none, "transient") := by
  refine ⟨?_, ?_, ?_, rfl⟩
  · intro h; simp [fetch_page, h]
  · intro h1 h2
    have : status ≠ 200 := by omega
    simp [fetch_page, this, h1, h2]
  · intro h1 h2
    simp [fetch_page, h1, h2]

/-- Witness for C2 at statuses 200, 503 and 404 and at a network fault. -/
theorem fetch_classification_witness :
    fetch_page (.response 200 "body") = (some "body", "ok") ∧
    fetch_page (.response 503 "x") = (none, "transient") ∧
    fetch_page (.response 404 "x") = (none, "permanent") ∧
    fetch_page .exception = (none, "transient") :=
  ⟨(fetch_classification 200 "body").1 rfl,
   (fetch_classification 503 "x").2.1 (by decide) (by decide),
   (fetch_classification 404 "x").2.2.1 (by decide) (by decide),
   (fetch_classification 404 "x").2.2.2⟩

/-- C10: `fetch_page` is total over its modelled failure modes — every
request-layer exception is mapped to a result, the returned status is
exactly one of `"ok"`, `"transient"`, `"permanent"`, and the returned
body is non-`None` iff the status is `"ok"`. -/
theorem fetch_page_total (a : HttpAttempt) :
    ((fetch_page a).2 = "ok" ∨ (fetch_page a).2 = "transient" ∨
      (fetch_page a).2 = "permanent") ∧
    ((fetch_page a).1.isSome ↔ (fetch_page a).2 = "ok") :=
  ⟨fetch_page_status_cases a, fetch_page_some_iff a⟩

/-- C1: on a transient fetch outcome for the dequeued target, the loop
re-enqueues the target iff the incremented retry counter is at most
`max_retries`, storing the incremented counter; otherwise it adds the
target to the failed set and does not re-enqueue it, so a target is
never re-enqueued a `(max_retries+1)`-th time. -/
theorem transientCase_retry (cfg : Config) (s1 : CrawlState) (url : String)
    (hc : lookupRetry s1.retries url + 1 ≤ cfg.max_retries) :
    transientCase cfg s1 url =
      ({ s1 with
          retries := setRetry s1.retries url (lookupRetry s1.retries url + 1)
          queue := s1.queue ++ [url] }, false) := by
  unfold transientCase
  rw [if_pos hc]

theorem transientCase_giveup (cfg : Config) (s1 : CrawlState) (url : String)
    (hc : ¬ lookupRetry s1.retries url + 1 ≤ cfg.max_retries) :
    transientCase cfg s1 url = ({ s1 with failed := addFailed s1.failed url }, false) := by
  unfold transientCase
  rw [if_neg hc]

theorem mem_addFailed_self (f : List String) (u : String) : u ∈ addFailed f u := by
  unfold addFailed
  by_cases hm : u ∈ f
  · rw [if_pos hm]; exact hm
  · rw [if_neg hm]; simp

theorem transient_retry_iff (cfg : Config) (net : Nat → String → HttpAttempt)
    (df : Nat → Bool) (s : CrawlState) (url : String) (rest : List String)
    (hq : s.queue = url :: rest) (hv : url ∉ s.visited)
    (ht : (fetch_page (net s.fetches url)).2 = "transient") :
    (step cfg net df s).2 = false ∧
    ((step cfg net df s).1.queue = rest ++ [url] ↔
      lookupRetry s.retries url + 1 ≤ cfg.max_retries) ∧
    (lookupRetry s.retries url + 1 ≤ cfg.max_retries →
      lookupRetry (step cfg net df s).1.retries url = lookupRetry s.retries url + 1 ∧
      (step cfg net df s).1.failed = s.failed) ∧
    (¬ lookupRetry s.retries url + 1 ≤ cfg.max_retries →
      (step cfg net df s).1.queue = rest ∧ url ∈ (step cfg net df s).1.failed) := by
  rw [step_transient cfg net df s url rest hq hv ht]
  by_cases hc : lookupRetry s.retries url + 1 ≤ cfg.max_retries
  · rw [transientCase_retry cfg { s with queue := rest, fetches := s.fetches + 1 } url hc]
    refine ⟨rfl, ⟨fun _ => hc, fun _ => rfl⟩, fun _ => ⟨?_, rfl⟩, fun hn => absurd hc hn⟩
    show lookupRetry (setRetry s.retries url (lookupRetry s.retries url + 1)) url = _
    rw [lookupRetry_setRetry]
    simp
  · rw [transientCase_giveup cfg { s with queue := rest, fetches := s.fetches + 1 } url hc]
    refine ⟨rfl, ⟨?_, fun hyes => absurd hyes hc⟩, fun hyes => absurd hyes hc,
      fun _ => ⟨rfl, mem_addFailed_self s.failed url⟩⟩
    intro hEq
    exfalso
    have := congrArg List.length hEq
    simp at this

/-- Witness for C1: a never-visited target with an always-failing
network, exercised at retry counters 0 (re-enqueue) and 3 (give up). -/
theorem transient_retry_iff_witness :
    (stateT.queue = "http://a.example" :: [] ∧
      "http://a.example" ∉ stateT.visited ∧
      (fetch_page (netDown stateT.fetches "http://a.example")).2 = "transient") ∧
    ((step cfgA netDown diskOk stateT).1.queue = [] ++ ["http://a.example"] ↔
      lookupRetry stateT.retries "http://a.example" + 1 ≤ cfgA.max_retries) := by
  refine ⟨⟨rfl, by decide, rfl⟩, ?_⟩
  exact (transient_retry_iff cfgA netDown diskOk stateT "http://a.example" []
    rfl (by decide) rfl).2.1

/-- C6: link extraction on a body containing the hyperlinks `#top`,
`mailto:a@b.com`, `/x` and `http://other.example/y`, with base URL
`http://seed.example/page`, keeps exactly the `/x` and other-domain
links (fragment and mailto are dropped at extraction), and the
enqueue-time domain filter against `seed.example` then leaves exactly
`http://seed.example/x`. -/
theorem extract_filter_c6 :
    extract_links c6Html "http://seed.example/page" =
      ["http://seed.example/x", "http://other.example/y"] ∧
    enqueueLinks "seed.example" [] []
      (extract_links c6Html "http://seed.example/page") = ["http://seed.example/x"] := by
  constructor <;> decide

/-- C7 counterexample: normalization removes **both** slashes of
`http://host//`, not exactly one — the result is `http://host`, not
`http://host/`. -/
theorem rstrip_one_slash_counterexample :
    normalizeLink "http://seed.example/page" "http://host//" = "http://host" ∧
    normalizeLink "http://seed.example/page" "http://host//" ≠ "http://host/" := by
  constructor <;> decide

/-- C7 (amended): normalization strips **all** trailing `'/'` characters
(so no normalized URL ends in `'/'`); on `http://host//` both slashes
are removed, and `http://host` and `http://host/` still normalize
identically. -/
theorem normalize_strips_all_slashes (b u : String) :
    (normalizeLink b u).toList.getLast? ≠ some '/' ∧
    normalizeLink "http://seed.example/page" "http://host//" = "http://host" ∧
    normalizeLink "http://seed.example/page" "http://host/" =
      normalizeLink "http://seed.example/page" "http://host" :=
  ⟨rstripSlashL_getLast _, by decide, by decide⟩

/-- C9 counterexample: with a network that returns 200 and a disk whose
first page write raises, the run dies with an uncaught exception — no
summary is emitted, the target is not in `visited`, and nothing was
recorded in `failed`. -/
theorem persistence_failure_counterexample :
    runCrawl cfgA netEmptyOk (fun k => k == 1) 10 = none ∧
    (crawlN cfgA netEmptyOk (fun k => k == 1) 10 (initState cfgA)).1.visited = [] ∧
    (crawlN cfgA netEmptyOk (fun k => k == 1) 10 (initState cfgA)).1.failed = [] := by
  refine ⟨?_, ?_, ?_⟩ <;> decide

/-- C9 (amended): if writing a successfully fetched page's body raises,
the target is not added to `visited` (and not recorded in `failed`), but
the exception is uncaught: the iteration aborts, and once the loop
aborts this way the run emits no end-of-run summary. -/
theorem disk_write_failure_aborts (cfg : Config) (net : Nat → String → HttpAttempt)
    (df : Nat → Bool) (s : CrawlState) (url : String) (rest : List String) (html : String)
    (hq : s.queue = url :: rest) (hv : url ∉ s.visited)
    (hb : (fetch_page (net s.fetches url)).1 = some html)
    (hst : (fetch_page (net s.fetches url)).2 = "ok")
    (hdf : df s.page_id = true) :
    (step cfg net df s).2 = true ∧
    (step cfg net df s).1.visited = s.visited ∧
    url ∉ (step cfg net df s).1.visited ∧
    (step cfg net df s).1.failed = s.failed ∧
    ∀ fuel, (crawlN cfg net df fuel (initState cfg)).2 = true →
      runCrawl cfg net df fuel = none := by
  rw [step_crash cfg net df s url rest html hq hv hb hst hdf]
  exact ⟨rfl, rfl, hv, rfl, fun fuel h => runCrawl_none_of_crash cfg net df fuel h⟩

/-- Witness for C9 (amended): the crashing scenario of the
counterexample, checked through the theorem. -/
theorem disk_write_failure_aborts_witness :
    ((initState cfgA).queue = "http://a.example" :: [] ∧
      (fetch_page (netEmptyOk (initState cfgA).fetches "http://a.example")).1 = some "" ∧
      ((fun k => k == 1) (initState cfgA).page_id) = true) ∧
    (step cfgA netEmptyOk (fun k => k == 1) (initState cfgA)).2 = true ∧
    (step cfgA netEmptyOk (fun k => k == 1) (initState cfgA)).1.visited = [] := by
  refine ⟨⟨by decide, rfl, rfl⟩, ?_⟩
  have h := disk_write_failure_aborts cfgA netEmptyOk (fun k => k == 1) (initState cfgA)
    "http://a.example" [] "" (by decide) (by decide) rfl rfl rfl
  exact ⟨h.1, h.2.1⟩

/-! ### Exhaustive case analysis of one loop iteration -/

theorem step_cases (cfg : Config) (net : Nat → String → HttpAttempt) (df : Nat → Bool)
    (s : CrawlState) (url : String) (rest : List String) (hq : s.queue = url :: rest) :
    (url ∈ s.visited ∧ step cfg net df s = ({ s with queue := rest }, false)) ∨
    (url ∉ s.visited ∧ ∃ html,
      (fetch_page (net s.fetches url)).1 = some html ∧
      (fetch_page (net s.fetches url)).2 = "ok" ∧ df s.page_id = false ∧
      step cfg net df s =
        ({ s with
            queue := enqueueLinks (get_domain cfg.seed_url) (s.visited ++ [url]) rest
              (extract_links html url)
            visited := s.visited ++ [url]
            page_id := s.page_id + 1
            fetches := s.fetches + 1 }, false)) ∨
    (url ∉ s.visited ∧ df s.page_id = true ∧
      step cfg net df s = ({ s with queue := rest, fetches := s.fetches + 1 }, true)) ∨
    (url ∉ s.visited ∧
      step cfg net df s =
        transientCase cfg { s with queue := rest, fetches := s.fetches + 1 } url) ∨
    (url ∉ s.visited ∧
      step cfg net df s =
        ({ s with
            queue := rest
            fetches := s.fetches + 1
            failed := addFailed s.failed url }, false)) := by
  by_cases hv : url ∈ s.visited
  · exact Or.inl ⟨hv, step_skip cfg net df s url rest hq hv⟩
  · rcases fetch_page_status_cases (net s.fetches url) with hok | ht | hp
    · obtain ⟨html, hb⟩ := fetch_page_ok_some _ hok
      by_cases hdf : df s.page_id = true
      · exact Or.inr (Or.inr (Or.inl
          ⟨hv, hdf, step_crash cfg net df s url rest html hq hv hb hok hdf⟩))
      · have hdf' : df s.page_id = false := by simpa using hdf
        exact Or.inr (Or.inl ⟨hv, html, hb, hok, hdf',
          step_success cfg net df s url rest html hq hv hb hok hdf'⟩)
    · exact Or.inr (Or.inr (Or.inr (Or.inl
        ⟨hv, step_transient cfg net df s url rest hq hv ht⟩)))
    · exact Or.inr (Or.inr (Or.inr (Or.inr
        ⟨hv, step_permanent cfg net df s url rest hq hv hp⟩)))

theorem step_visited_bound (cfg : Config) (net : Nat → String → HttpAttempt)
    (df : Nat → Bool) (s : CrawlState) :
    ((step cfg net df s).1).visited.length ≤ s.visited.length + 1 := by
  rcases hq : s.queue with _ | ⟨url, rest⟩
  · unfold step; rw [hq]; simp
  · rcases step_cases cfg net df s url rest hq with
      ⟨_, he⟩ | ⟨_, html, _, _, _, he⟩ | ⟨_, _, he⟩ | ⟨_, he⟩ | ⟨_, he⟩
    · rw [he]; simp
    · rw [he]; simp
    · rw [he]; simp
    · rw [he]
      by_cases hc : lookupRetry
          ({ s with queue := rest, fetches := s.fetches + 1 } : CrawlState).retries url + 1 ≤
            cfg.max_retries
      · rw [transientCase_retry _ _ _ hc]; simp
      · rw [transientCase_giveup _ _ _ hc]; simp
    · rw [he]; simp

/-- Any property preserved by non-terminal iterations holds on every
state the loop ever reaches. -/
theorem crawlN_inv (cfg : Config) (net : Nat → String → HttpAttempt) (df : Nat → Bool)
    (P : CrawlState → Prop)
    (hstep : ∀ s, s.queue ≠ [] → s.visited.length < cfg.max_pages → P s →
      P (step cfg net df s).1) :
    ∀ (n : Nat) (s : CrawlState), P s → P (crawlN cfg net df n s).1 := by
  intro n
  induction n with
  | zero => intro s h; exact h
  | succ m ih =>
    intro s h
    simp only [crawlN]
    split_ifs with hg
    · have hP1 := hstep s hg.1 hg.2 h
      rcases hstep_eq : step cfg net df s with ⟨s1, b⟩
      rw [hstep_eq] at hP1
      cases b
      · exact ih s1 hP1
      · exact hP1
    · exact h

/-- C3: at every point during the crawl loop and after it terminates,
the number of visited targets is at most `max_pages`: if the bound holds
on a state it holds after any number of iterations from it (in
particular from the initial state, whose visited list is empty). -/
theorem visited_never_exceeds_budget (cfg : Config) (net : Nat → String → HttpAttempt)
    (df : Nat → Bool) (n : Nat) (s : CrawlState)
    (h : s.visited.length ≤ cfg.max_pages) :
    ((crawlN cfg net df n s).1).visited.length ≤ cfg.max_pages := by
  refine crawlN_inv cfg net df (fun st => st.visited.length ≤ cfg.max_pages) ?_ n s h
  intro st _ hlt _
  have := step_visited_bound cfg net df st
  omega

/-- Witness for C3 on a concrete two-iteration run from the initial
state. -/
theorem visited_never_exceeds_budget_witness :
    (initState cfgA).visited.length ≤ cfgA.max_pages ∧
    ((crawlN cfgA netDown diskOk 2 (initState cfgA)).1).visited.length ≤ cfgA.max_pages :=
  ⟨by decide, visited_never_exceeds_budget cfgA netDown diskOk 2 (initState cfgA) (by decide)⟩

/-! ### Queue/visited disjointness -/

theorem enqueueLinks_inv (dom : String) (visited : List String) :
    ∀ (links q0 : List String), q0.Nodup → (∀ u ∈ q0, u ∉ visited) →
      (enqueueLinks dom visited q0 links).Nodup ∧
        ∀ u ∈ enqueueLinks dom visited q0 links, u ∉ visited := by
  intro links
  induction links with
  | nil => intro q0 h1 h2; exact ⟨h1, h2⟩
  | cons link ls ih =>
    intro q0 h1 h2
    show (enqueueLinks dom visited _ ls).Nodup ∧ _
    by_cases hd : get_domain link ≠ dom
    · simp only [enqueueLinks, List.foldl_cons, if_pos hd]
      exact ih q0 h1 h2
    · simp only [enqueueLinks, List.foldl_cons, if_neg hd]
      by_cases hnew : link ∉ visited ∧ link ∉ q0
      · rw [if_pos hnew]
        refine ih (q0 ++ [link]) ?_ ?_
        · simp [List.nodup_append, h1, hnew.2]
        · intro u hu
          rcases List.mem_append.mp hu with hh | hh
          · exact h2 u hh
          · simp at hh; subst hh; exact hnew.1
      · rw [if_neg hnew]
        exact ih q0 h1 h2

theorem step_QInv (cfg : Config) (net : Nat → String → HttpAttempt) (df : Nat → Bool)
    (s : CrawlState) (h : QInv s) : QInv (step cfg net df s).1 := by
  rcases hq : s.queue with _ | ⟨url, rest⟩
  · unfold step; rw [hq]; exact h
  · have hnodup := h.1
    rw [hq] at hnodup
    have hrest_nodup : rest.Nodup := List.Nodup.of_cons hnodup
    have hurl_rest : url ∉ rest := (List.nodup_cons.mp hnodup).1
    have hmem : ∀ u ∈ rest, u ∉ s.visited := fun u hu =>
      h.2 u (by rw [hq]; exact List.mem_cons_of_mem _ hu)
    rcases step_cases cfg net df s url rest hq with
      ⟨hv, he⟩ | ⟨hv, html, hb, hok, hdf, he⟩ | ⟨hv, hdf, he⟩ | ⟨hv, he⟩ | ⟨hv, he⟩
    · rw [he]; exact ⟨hrest_nodup, hmem⟩
    · rw [he]
      have hmem' : ∀ u ∈ rest, u ∉ s.visited ++ [url] := by
        intro u hu hmm
        rcases List.mem_append.mp hmm with hh | hh
        · exact hmem u hu hh
        · simp at hh; subst hh; exact hurl_rest hu
      exact enqueueLinks_inv (get_domain cfg.seed_url) (s.visited ++ [url])
        (extract_links html url) rest hrest_nodup hmem'
    · rw [he]; exact ⟨hrest_nodup, hmem⟩
    · rw [he]
      by_cases hc : lookupRetry
          ({ s with queue := rest, fetches := s.fetches + 1 } : CrawlState).retries url + 1 ≤
            cfg.max_retries
      · rw [transientCase_retry _ _ _ hc]
        constructor
        · simp [List.nodup_append, hrest_nodup, hurl_rest]
        · intro u hu
          rcases List.mem_append.mp hu with hh | hh
          · exact hmem u hh
          · simp at hh; subst hh; exact hv
      · rw [transientCase_giveup _ _ _ hc]
        exact ⟨hrest_nodup, hmem⟩
    · rw [he]; exact ⟨hrest_nodup, hmem⟩

/-- C5 (amended): no target is ever simultaneously in the visited set
and the queue — this part of the claim holds on every reachable state.
(The stronger "at most one of queue/visited/failed" is refuted
separately: a failed target rediscovered through a link is re-enqueued.) -/
theorem queue_visited_disjoint (cfg : Config) (net : Nat → String → HttpAttempt)
    (df : Nat → Bool) (n : Nat) (u : String)
    (hu : u ∈ ((crawlN cfg net df n (initState cfg)).1).queue) :
    u ∉ ((crawlN cfg net df n (initState cfg)).1).visited := by
  have hinv : QInv ((crawlN cfg net df n (initState cfg)).1) := by
    refine crawlN_inv cfg net df QInv (fun st _ _ hP => step_QInv cfg net df st hP) n _ ?_
    constructor
    · simp [initState]
    · intro v hv
      simp [initState]
  exact hinv.2 u hu

/-- Witness for C5 (amended): after one all-transient iteration the seed
is back in the queue, and the theorem places it outside `visited`. -/
theorem queue_visited_disjoint_witness :
    "http://a.example" ∈ ((crawlN cfgA netDown diskOk 1 (initState cfgA)).1).queue ∧
    "http://a.example" ∉ ((crawlN cfgA netDown diskOk 1 (initState cfgA)).1).visited :=
  ⟨by decide, queue_visited_disjoint cfgA netDown diskOk 1 "http://a.example" (by decide)⟩

/-- C5 counterexample: a target CAN be in the queue and the failed set
simultaneously — after the seed page links to `/u` (permanent 404) and
`/v`, and `/v` links back to `/u`, the state reached after three
iterations holds `/u` in both containers, refuting "a CrawlTarget is a
member of at most one of {queue, visited, failed} at any instant". -/
theorem queue_failed_overlap_counterexample :
    "http://seed.example/u" ∈
      ((crawlN cfgSeedUV netUV diskOk 3 (initState cfgSeedUV)).1).queue ∧
    "http://seed.example/u" ∈
      ((crawlN cfgSeedUV netUV diskOk 3 (initState cfgSeedUV)).1).failed := by
  constructor <;> decide

/-! ### Termination of the crawl loop -/

/-- With a healthy disk, every iteration either grows `visited` (the
budget distance shrinks) or strictly shrinks the queue's retry
potential. -/
theorem step_decrease (cfg : Config) (net : Nat → String → HttpAttempt) (df : Nat → Bool)
    (hdf : ∀ k, df k = false) (s : CrawlState) (url : String) (rest : List String)
    (hq : s.queue = url :: rest) (hlt : s.visited.length < cfg.max_pages) :
    (step cfg net df s).2 = false ∧
    (cfg.max_pages - (step cfg net df s).1.visited.length <
        cfg.max_pages - s.visited.length ∨
      ((step cfg net df s).1.visited = s.visited ∧
        qweight cfg (step cfg net df s).1 < qweight cfg s)) := by
  have hdrop : ((rest.map (retryWeight cfg.max_retries s.retries)).sum <
      qweight cfg s) := by
    simp only [qweight, hq, List.map_cons, List.sum_cons, retryWeight]
    omega
  rcases step_cases cfg net df s url rest hq with
    ⟨hv, he⟩ | ⟨hv, html, hb, hok, hdfp, he⟩ | ⟨hv, hdfp, he⟩ | ⟨hv, he⟩ | ⟨hv, he⟩
  · rw [he]
    exact ⟨rfl, Or.inr ⟨rfl, hdrop⟩⟩
  · rw [he]
    refine ⟨rfl, Or.inl ?_⟩
    simp only [List.length_append, List.length_cons, List.length_nil]
    omega
  · exact absurd hdfp (by simp [hdf])
  · rw [he]
    by_cases hc : lookupRetry
        ({ s with queue := rest, fetches := s.fetches + 1 } : CrawlState).retries url + 1 ≤
          cfg.max_retries
    · rw [transientCase_retry _ _ _ hc]
      refine ⟨rfl, Or.inr ⟨rfl, ?_⟩⟩
      have hc' : lookupRetry s.retries url + 1 ≤ cfg.max_retries := hc
      show ((rest ++ [url]).map
        (retryWeight cfg.max_retries
          (setRetry s.retries url (lookupRetry s.retries url + 1)))).sum < qweight cfg s
      rw [List.map_append, List.sum_append]
      have hmono : ((rest.map (retryWeight cfg.max_retries
          (setRetry s.retries url (lookupRetry s.retries url + 1)))).sum ≤
            (rest.map (retryWeight cfg.max_retries s.retries)).sum) := by
        apply List.sum_le_sum
        intro x _
        simp only [retryWeight, lookupRetry_setRetry]
        by_cases hx : x = url
        · rw [if_pos hx, hx]
          omega
        · rw [if_neg hx]
      have hself : retryWeight cfg.max_retries
          (setRetry s.retries url (lookupRetry s.retries url + 1)) url =
            1 + (cfg.max_retries - (lookupRetry s.retries url + 1)) := by
        simp [retryWeight, lookupRetry_setRetry]
      have hqs : qweight cfg s =
          1 + (cfg.max_retries - lookupRetry s.retries url) +
            (rest.map (retryWeight cfg.max_retries s.retries)).sum := by
        simp only [qweight, hq, List.map_cons, List.sum_cons, retryWeight]
      simp only [List.map_cons, List.sum_cons, List.map_nil, List.sum_nil, hself]
      omega
    · rw [transientCase_giveup _ _ _ hc]
      exact ⟨rfl, Or.inr ⟨rfl, hdrop⟩⟩
  · rw [he]
    exact ⟨rfl, Or.inr ⟨rfl, hdrop⟩⟩

/-- Unfolding one non-terminal, non-crashing iteration. -/
theorem crawlN_succ_of_step (cfg : Config) (net : Nat → String → HttpAttempt)
    (df : Nat → Bool) (s : CrawlState)
    (hg : s.queue ≠ [] ∧ s.visited.length < cfg.max_pages)
    (hnc : (step cfg net df s).2 = false) (n : Nat) :
    crawlN cfg net df (n + 1) s = crawlN cfg net df n (step cfg net df s).1 := by
  simp only [crawlN]
  rw [if_pos hg]
  rcases hstep_eq : step cfg net df s with ⟨s1, b⟩
  rw [hstep_eq] at hnc
  simp only at hnc
  subst hnc
  rfl

theorem crawl_reaches_end_aux (cfg : Config) (net : Nat → String → HttpAttempt)
    (df : Nat → Bool) (hdf : ∀ k, df k = false) :
    ∀ (a b : Nat) (s : CrawlState),
      cfg.max_pages - s.visited.length < a → qweight cfg s < b →
      ∃ n, (crawlN cfg net df n s).2 = false ∧
        ((crawlN cfg net df n s).1.queue = [] ∨
          ¬ (crawlN cfg net df n s).1.visited.length < cfg.max_pages) := by
  intro a
  induction a with
  | zero => intro b s ha _; omega
  | succ a iha =>
    intro b
    induction b with
    | zero => intro s _ hb; omega
    | succ b ihb =>
      intro s ha hb
      by_cases hterm : s.queue = [] ∨ ¬ s.visited.length < cfg.max_pages
      · exact ⟨0, rfl, hterm⟩
      · push_neg at hterm
        obtain ⟨hqne, hlt⟩ := hterm
        rcases hqeq : s.queue with _ | ⟨url, rest⟩
        · exact absurd hqeq hqne
        · obtain ⟨hnc, hdec⟩ := step_decrease cfg net df hdf s url rest hqeq hlt
          have hguard : s.queue ≠ [] ∧ s.visited.length < cfg.max_pages := ⟨hqne, hlt⟩
          rcases hdec with hbud | ⟨hvis_eq, hqw⟩
          · obtain ⟨n, hn1, hn2⟩ := iha (qweight cfg (step cfg net df s).1 + 1)
              (step cfg net df s).1 (by omega) (by omega)
            refine ⟨n + 1, ?_, ?_⟩
            · rw [crawlN_succ_of_step cfg net df s hguard hnc n]
              exact hn1
            · rw [crawlN_succ_of_step cfg net df s hguard hnc n]
              exact hn2
          · obtain ⟨n, hn1, hn2⟩ := ihb (step cfg net df s).1
              (by rw [hvis_eq]; omega) (by omega)
            refine ⟨n + 1, ?_, ?_⟩
            · rw [crawlN_succ_of_step cfg net df s hguard hnc n]
              exact hn1
            · rw [crawlN_succ_of_step cfg net df s hguard hnc n]
              exact hn2

/-- C4: the crawl loop terminates for every network behaviour (with a
healthy disk): some number of iterations reaches, without an uncaught
exception, a state where the loop guard `queue and len(visited) <
max_pages` is false — i.e. it stops exactly when the queue is empty or
the visited count has reached `max_pages`, whichever happens first. -/
theorem crawl_terminates (cfg : Config) (net : Nat → String → HttpAttempt)
    (df : Nat → Bool) (hdf : ∀ k, df k = false) (s : CrawlState)
    (h0 : s.visited.length ≤ cfg.max_pages) :
    ∃ n, (crawlN cfg net df n s).2 = false ∧
      ((crawlN cfg net df n s).1.queue = [] ∨
        (crawlN cfg net df n s).1.visited.length = cfg.max_pages) := by
  obtain ⟨n, h1, h2⟩ := crawl_reaches_end_aux cfg net df hdf
    (cfg.max_pages - s.visited.length + 1) (qweight cfg s + 1) s (by omega) (by omega)
  refine ⟨n, h1, ?_⟩
  rcases h2 with h2 | h2
  · exact Or.inl h2
  · right
    have hb := crawlN_inv cfg net df (fun st => st.visited.length ≤ cfg.max_pages)
      (fun st _ hlt _ => by have := step_visited_bound cfg net df st; omega) n s h0
    omega

/-- Witness for C4: a seed page that is fetchable and contains no links;
the run terminates with an empty queue. -/
theorem crawl_terminates_witness :
    (initState cfgA).visited.length ≤ cfgA.max_pages ∧
    ∃ n, (crawlN cfgA netEmptyOk diskOk n (initState cfgA)).2 = false ∧
      ((crawlN cfgA netEmptyOk diskOk n (initState cfgA)).1.queue = [] ∨
        (crawlN cfgA netEmptyOk diskOk n (initState cfgA)).1.visited.length =
          cfgA.max_pages) :=
  ⟨by decide,
   crawl_terminates cfgA netEmptyOk diskOk (fun _ => rfl) (initState cfgA) (by decide)⟩

/-! ### List algebra for the URL normalizer -/

theorem splitOnce_none_iff (c : Char) (l : List Char) : splitOnce c l = none ↔ c ∉ l := by
  induction l with
  | nil => simp [splitOnce]
  | cons x xs ih =>
    by_cases hx : x = c
    · subst hx
      simp [splitOnce]
    · simp [splitOnce, hx, Option.map_eq_none', ih, Ne.symm hx]

theorem splitOnce_some_decomp (c : Char) :
    ∀ (l : List Char) (p : List Char × List Char), splitOnce c l = some p →
      l = p.1 ++ c :: p.2 ∧ c ∉ p.1 := by
  intro l
  induction l with
  | nil => intro p h; simp [splitOnce] at h
  | cons x xs ih =>
    intro p h
    by_cases hx : x = c
    · subst hx
      simp [splitOnce] at h
      rw [← h]
      simp
    · simp only [splitOnce, if_neg hx, Option.map_eq_some'] at h
      obtain ⟨p0, hp0, hp⟩ := h
      obtain ⟨h1, h2⟩ := ih p0 hp0
      subst hp
      constructor
      · simp [h1]
      · simp only [List.mem_cons, not_or]
        exact ⟨Ne.symm hx, h2⟩

theorem splitOnce_of_decomp (c : Char) (a b : List Char) (ha : c ∉ a) :
    splitOnce c (a ++ c :: b) = some (a, b) := by
  induction a with
  | nil => simp [splitOnce]
  | cons x xs ih =>
    simp only [List.mem_cons, not_or] at ha
    have hx : ¬ x = c := fun h => ha.1 h.symm
    have hstep : splitOnce c ((x :: xs) ++ c :: b) =
        (splitOnce c (xs ++ c :: b)).map (fun p => (x :: p.1, p.2)) := by
      rw [List.cons_append]
      simp [splitOnce, if_neg hx]
    rw [hstep, ih ha.2]
    rfl

theorem splitLast_some_decomp (c : Char) (l : List Char) (p : List Char × List Char)
    (h : splitLast c l = some p) : l = p.1 ++ c :: p.2 ∧ c ∉ p.2 := by
  unfold splitLast at h
  rw [Option.map_eq_some'] at h
  obtain ⟨p0, hp0, hp⟩ := h
  obtain ⟨h1, h2⟩ := splitOnce_some_decomp c l.reverse p0 hp0
  subst hp
  constructor
  · have := congrArg List.reverse h1
    simpa [List.reverse_append] using this
  · simpa using h2

theorem splitLast_of_decomp (c : Char) (f t : List Char) (ht : c ∉ t) :
    splitLast c (f ++ c :: t) = some (f, t) := by
  unfold splitLast
  have : (f ++ c :: t).reverse = t.reverse ++ c :: f.reverse := by
    simp [List.reverse_append]
  rw [this, splitOnce_of_decomp c t.reverse f.reverse (by simpa using ht)]
  simp

theorem splitLast_none_iff (c : Char) (l : List Char) : splitLast c l = none ↔ c ∉ l := by
  unfold splitLast
  rw [Option.map_eq_none', splitOnce_none_iff]
  simp

theorem rstripSlashL_append (x y : List Char) :
    rstripSlashL (x ++ y) =
      if rstripSlashL y = [] then rstripSlashL x else x ++ rstripSlashL y := by
  unfold rstripSlashL
  rw [List.reverse_append, List.dropWhile_append]
  by_cases hy : (y.reverse.dropWhile (fun c => c = '/')) = []
  · simp [hy]
  · simp [hy, List.reverse_append]

theorem rstripSlashL_eq_self (l : List Char) (h : l.getLast? ≠ some '/') :
    rstripSlashL l = l := by
  unfold rstripSlashL
  rcases hl : l.reverse with _ | ⟨c, cs⟩
  · have : l = [] := by simpa using congrArg List.reverse hl
    simp [this]
  · have hc : l.getLast? = some c := by
      rw [← List.head?_reverse, hl]
      rfl
    have hcs : ¬ c = '/' := fun hx => h (by rw [hc, hx])
    rw [List.dropWhile_cons_of_neg (by simpa using hcs)]
    rw [← hl, List.reverse_reverse]

theorem rstripSlashL_idem (l : List Char) :
    rstripSlashL (rstripSlashL l) = rstripSlashL l :=
  rstripSlashL_eq_self _ (rstripSlashL_getLast l)

theorem rstripSlashL_append_slashes (l : List Char) (k : Nat) :
    rstripSlashL (l ++ List.replicate k '/') = rstripSlashL l := by
  rw [rstripSlashL_append]
  have : rstripSlashL (List.replicate k '/') = [] := by
    unfold rstripSlashL
    rw [List.reverse_replicate]
    rw [List.dropWhile_eq_nil_iff.mpr]
    · rfl
    · intro c hc
      simp at hc
      simp [hc.2]
  simp [this]

theorem takeWhile_append_all (p : Char → Bool) (a b : List Char)
    (ha : ∀ x ∈ a, p x = true) (hb : b.head?.all (fun c => ! p c) = true) :
    (a ++ b).takeWhile p = a ∧ (a ++ b).dropWhile p = b := by
  induction a with
  | nil =>
    rcases b with _ | ⟨c, cs⟩
    · exact ⟨rfl, rfl⟩
    · have hb' : (! p c) = true := hb
      have hneg : ¬ p c = true := by simpa using hb'
      simp only [List.nil_append]
      rw [List.takeWhile_cons_of_neg hneg, List.dropWhile_cons_of_neg hneg]
      exact ⟨rfl, rfl⟩
  | cons x xs ih =>
    have hx : p x = true := ha x (by simp)
    have ih2 := ih (fun y hy => ha y (by simp [hy]))
    simp only [List.cons_append, List.takeWhile_cons_of_pos hx,
      List.dropWhile_cons_of_pos hx]
    exact ⟨by rw [ih2.1], ih2.2⟩

theorem takeWhile_nil_dropWhile (p : Char → Bool) (l : List Char)
    (h : l.takeWhile p = []) : l.dropWhile p = l := by
  rcases l with _ | ⟨c, cs⟩
  · rfl
  · by_cases hc : p c
    · rw [List.takeWhile_cons_of_pos hc] at h
      cases h
    · rw [List.dropWhile_cons_of_neg (by simpa using hc)]

/-! ### Character-class lemmas -/

theorem char_toLower_of_not_upper (c : Char) (h : ¬(65 ≤ c.toNat ∧ c.toNat ≤ 90)) :
    Char.toLower c = c := by
  unfold Char.toLower
  exact if_neg fun hcon => h ⟨hcon.1, hcon.2⟩

theorem char_toLower_toLower (c : Char) :
    Char.toLower (Char.toLower c) = Char.toLower c := by
  by_cases hu : 65 ≤ c.toNat ∧ c.toNat ≤ 90
  · have hc : c = Char.ofNat c.toNat := (Char.ofNat_toNat c).symm
    obtain ⟨m, hm⟩ : ∃ m, c.toNat = m := ⟨c.toNat, rfl⟩
    rw [hm] at hc hu
    subst hc
    obtain ⟨h1, h2⟩ := hu
    interval_cases m <;> decide
  · rw [char_toLower_of_not_upper c hu, char_toLower_of_not_upper c hu]

theorem char_isAlpha_toLower (c : Char) :
    (Char.toLower c).isAlpha = c.isAlpha := by
  by_cases hu : 65 ≤ c.toNat ∧ c.toNat ≤ 90
  · have hc : c = Char.ofNat c.toNat := (Char.ofNat_toNat c).symm
    obtain ⟨m, hm⟩ : ∃ m, c.toNat = m := ⟨c.toNat, rfl⟩
    rw [hm] at hc hu
    subst hc
    obtain ⟨h1, h2⟩ := hu
    interval_cases m <;> decide
  · rw [char_toLower_of_not_upper c hu]

theorem schemeChars_toLower (c : Char) (h : schemeChars.contains c = true) :
    schemeChars.contains (Char.toLower c) = true := by
  by_cases hu : 65 ≤ c.toNat ∧ c.toNat ≤ 90
  · have hc : c = Char.ofNat c.toNat := (Char.ofNat_toNat c).symm
    obtain ⟨m, hm⟩ : ∃ m, c.toNat = m := ⟨c.toNat, rfl⟩
    rw [hm] at hc hu
    subst hc
    obtain ⟨h1, h2⟩ := hu
    interval_cases m <;> decide
  · rw [char_toLower_of_not_upper c hu]
    exact h

theorem schemeChars_no_colon (s : List Char) (h : s.all schemeChars.contains = true) :
    ':' ∉ s := by
  intro hmem
  have := List.all_eq_true.mp h ':' hmem
  simp [schemeChars] at this

theorem schemeChars_no_slash (s : List Char) (h : s.all schemeChars.contains = true) :
    '/' ∉ s := by
  intro hmem
  have := List.all_eq_true.mp h '/' hmem
  simp [schemeChars] at this

theorem schemeChars_no_delims (s : List Char) (h : s.all schemeChars.contains = true) :
    ∀ c ∈ s, c ≠ '/' ∧ c ≠ '?' ∧ c ≠ '#' := by
  intro c hmem
  have := List.all_eq_true.mp h c hmem
  refine ⟨?_, ?_, ?_⟩ <;> rintro rfl <;> simp [schemeChars] at this

/-! ### Cleanliness (no tab/CR/LF, no leading C0 control) -/

theorem removeUnsafeBytes_eq_self (l : List Char)
    (h : ∀ c ∈ l, ¬(c = '\t' ∨ c = '\r' ∨ c = '\n')) : removeUnsafeBytes l = l := by
  unfold removeUnsafeBytes
  rw [List.filter_eq_self]
  intro a ha
  have h3 := h a ha
  push_neg at h3
  simp [h3.1, h3.2.1, h3.2.2]

theorem removeUnsafeBytes_self_forall (l : List Char) (h : removeUnsafeBytes l = l) :
    ∀ c ∈ l, ¬(c = '\t' ∨ c = '\r' ∨ c = '\n') := by
  intro c hc
  have hmem := List.filter_eq_self.mp h c hc
  rintro (h1 | h1 | h1) <;> subst h1 <;> simp at hmem

theorem alpha_not_c0 (c : Char) (h : c.isAlpha = true) : isC0OrSpace c = false := by
  by_cases h0 : isC0OrSpace c = true
  · exfalso
    have hle : c.toNat ≤ 32 := by simpa [isC0OrSpace] using h0
    have hc : c = Char.ofNat c.toNat := (Char.ofNat_toNat c).symm
    obtain ⟨m, hm⟩ : ∃ m, c.toNat = m := ⟨c.toNat, rfl⟩
    rw [hm] at hc hle
    subst hc
    interval_cases m <;> exact absurd h (by decide)
  · simpa using h0

theorem lstripC0_eq_self (l : List Char)
    (h : l.head?.all (fun c => ! isC0OrSpace c) = true) : lstripC0 l = l := by
  unfold lstripC0
  rcases l with _ | ⟨c, cs⟩
  · rfl
  · have hb : (! isC0OrSpace c) = true := h
    exact List.dropWhile_cons_of_neg (by simpa using hb)

/-! ### `splitScheme` equations -/

theorem splitScheme_explicit (d s t : List Char) (hs : validLowerScheme s) :
    splitScheme d (s ++ ':' :: t) = (s, t) := by
  obtain ⟨hne, hhead, hall, hlow⟩ := hs
  unfold splitScheme
  rw [splitOnce_of_decomp ':' s t (schemeChars_no_colon s hall)]
  show (if s ≠ [] ∧ Option.any Char.isAlpha s.head? = true ∧
      s.all schemeChars.contains = true then
      (List.map Char.toLower s, t) else (d, s ++ ':' :: t)) = (s, t)
  rw [if_pos ⟨hne, hhead, hall⟩, hlow]

theorem splitScheme_no_colon (d l : List Char) (h : ':' ∉ l) :
    splitScheme d l = (d, l) := by
  unfold splitScheme
  rw [(splitOnce_none_iff ':' l).mpr h]

theorem splitScheme_head_not_alpha (d l : List Char)
    (h : l.head?.any Char.isAlpha = false) : splitScheme d l = (d, l) := by
  unfold splitScheme
  rcases hsp : splitOnce ':' l with _ | ⟨sc, post⟩
  · rfl
  · obtain ⟨hdec, _⟩ := splitOnce_some_decomp ':' l (sc, post) hsp
    rcases sc with _ | ⟨c, cs⟩
    · simp
    · have hhd : l.head? = some c := by rw [hdec]; rfl
      rw [hhd] at h
      have hna : Char.isAlpha c = false := by simpa using h
      have hcond : ¬ ((c :: cs) ≠ [] ∧ Option.any Char.isAlpha (c :: cs).head? = true ∧
          (c :: cs).all schemeChars.contains = true) := by
        rintro ⟨_, hh, _⟩
        simp only [List.head?_cons, Option.any_some] at hh
        rw [hh] at hna
        cases hna
      show (if (c :: cs) ≠ [] ∧ Option.any Char.isAlpha (c :: cs).head? = true ∧
          (c :: cs).all schemeChars.contains = true then
          (List.map Char.toLower (c :: cs), post) else (d, l)) = (d, l)
      rw [if_neg hcond]

/-! ### Membership helpers -/

theorem mem_of_mem_dropWhileL (p : Char → Bool) :
    ∀ (l : List Char) (x : Char), x ∈ l.dropWhile p → x ∈ l := by
  intro l
  induction l with
  | nil => intro x h; exact h
  | cons c cs ih =>
    intro x h
    by_cases hc : p c
    · rw [List.dropWhile_cons_of_pos hc] at h
      exact List.mem_cons_of_mem _ (ih x h)
    · rw [List.dropWhile_cons_of_neg (by simpa using hc)] at h
      exact h

theorem mem_takeWhile_sat (p : Char → Bool) :
    ∀ (l : List Char) (x : Char), x ∈ l.takeWhile p → p x = true ∧ x ∈ l := by
  intro l
  induction l with
  | nil => intro x h; cases h
  | cons c cs ih =>
    intro x h
    by_cases hc : p c
    · rw [List.takeWhile_cons_of_pos hc] at h
      rcases List.mem_cons.mp h with h1 | h1
      · subst h1; exact ⟨hc, by simp⟩
      · obtain ⟨hp, hm⟩ := ih x h1
        exact ⟨hp, List.mem_cons_of_mem _ hm⟩
    · rw [List.takeWhile_cons_of_neg (by simpa using hc)] at h
      cases h

theorem mem_of_mem_dropL : ∀ (n : Nat) (l : List Char) (x : Char), x ∈ l.drop n → x ∈ l := by
  intro n
  induction n with
  | zero => intro l x h; exact h
  | succ m ih =>
    intro l x h
    rcases l with _ | ⟨c, cs⟩
    · cases h
    · exact List.mem_cons_of_mem _ (ih cs x h)

theorem removeUnsafeBytes_no_bad (l : List Char) :
    ∀ c ∈ removeUnsafeBytes l, ¬(c = '\t' ∨ c = '\r' ∨ c = '\n') := by
  intro c hc
  unfold removeUnsafeBytes at hc
  have := (List.mem_filter.mp hc).2
  rintro (h1 | h1 | h1) <;> subst h1 <;> simp at this

/-! ### Structure of `urlsplit` results -/

/-- Facts delivered by the fragment/query splits: the path has no
`'?'`/`'#'`, the query has no `'#'`, and both are drawn from `mid`. -/
theorem splitFragmentQuery_facts (mid : List Char) :
    (∀ c ∈ (splitFragmentQuery mid).1, c ≠ '?' ∧ c ≠ '#' ∧ c ∈ mid) ∧
    (∀ c ∈ (splitFragmentQuery mid).2.1, c ≠ '#' ∧ c ∈ mid) := by
  rcases hfp : splitOnce '#' mid with _ | ⟨bf, frag⟩
  · have hnof := (splitOnce_none_iff '#' mid).mp hfp
    rcases hqp : splitOnce '?' mid with _ | ⟨pa, qu⟩
    · have hQ : splitFragmentQuery mid = (mid, [], []) := by
        unfold splitFragmentQuery
        rw [hfp, hqp]
      have hnoq := (splitOnce_none_iff '?' mid).mp hqp
      rw [hQ]
      refine ⟨?_, ?_⟩
      · intro c hc
        exact ⟨fun hcq => hnoq (hcq ▸ hc), fun hcf => hnof (hcf ▸ hc), hc⟩
      · intro c hc
        cases hc
    · have hQ : splitFragmentQuery mid = (pa, qu, []) := by
        unfold splitFragmentQuery
        rw [hfp, hqp]
      obtain ⟨hdec, hnq⟩ := splitOnce_some_decomp '?' mid _ hqp
      rw [hQ]
      refine ⟨?_, ?_⟩
      · intro c hc
        have hcm : c ∈ mid := hdec ▸ (List.mem_append.mpr (Or.inl hc))
        exact ⟨fun hcq => hnq (hcq ▸ hc), fun hcf => hnof (hcf ▸ hcm), hcm⟩
      · intro c hc
        have hcm : c ∈ mid := hdec ▸ (List.mem_append.mpr
          (Or.inr (List.mem_cons_of_mem _ hc)))
        exact ⟨fun hcf => hnof (hcf ▸ hcm), hcm⟩
  · obtain ⟨hdec, hnf⟩ := splitOnce_some_decomp '#' mid _ hfp
    rcases hqp : splitOnce '?' bf with _ | ⟨pa, qu⟩
    · have hQ : splitFragmentQuery mid = (bf, [], frag) := by
        unfold splitFragmentQuery
        rw [hfp]
        show (match splitOnce '?' bf with
          | some (pa2, qu2) => (pa2, qu2, frag)
          | none => (bf, [], frag)) = (bf, [], frag)
        rw [hqp]
      have hnoq := (splitOnce_none_iff '?' bf).mp hqp
      rw [hQ]
      refine ⟨?_, ?_⟩
      · intro c hc
        have hcm : c ∈ mid := hdec ▸ (List.mem_append.mpr (Or.inl hc))
        exact ⟨fun hcq => hnoq (hcq ▸ hc), fun hcf => hnf (hcf ▸ hc), hcm⟩
      · intro c hc
        cases hc
    · have hQ : splitFragmentQuery mid = (pa, qu, frag) := by
        unfold splitFragmentQuery
        rw [hfp]
        show (match splitOnce '?' bf with
          | some (pa2, qu2) => (pa2, qu2, frag)
          | none => (bf, [], frag)) = (pa, qu, frag)
        rw [hqp]
      obtain ⟨hdec2, hnq⟩ := splitOnce_some_decomp '?' bf _ hqp
      rw [hQ]
      refine ⟨?_, ?_⟩
      · intro c hc
        have hcf : c ∈ bf := hdec2 ▸ (List.mem_append.mpr (Or.inl hc))
        have hcm : c ∈ mid := hdec ▸ (List.mem_append.mpr (Or.inl hcf))
        exact ⟨fun hcq => hnq (hcq ▸ hc), fun hcx => hnf (hcx ▸ hcf), hcm⟩
      · intro c hc
        have hcf : c ∈ bf := hdec2 ▸ (List.mem_append.mpr
          (Or.inr (List.mem_cons_of_mem _ hc)))
        have hcm : c ∈ mid := hdec ▸ (List.mem_append.mpr (Or.inl hcf))
        exact ⟨fun hcx => hnf (hcx ▸ hcf), hcm⟩

/-- The post-scheme stages in terms of an explicit netloc split. -/
theorem postSchemeSplit_eq (s rest nl mid : List Char)
    (hnp : (if rest.take 2 = ['/', '/'] then splitNetloc (rest.drop 2)
      else ([], rest)) = (nl, mid)) :
    postSchemeSplit s rest =
      ⟨s, nl, (splitFragmentQuery mid).1, (splitFragmentQuery mid).2.1,
        (splitFragmentQuery mid).2.2⟩ := by
  unfold postSchemeSplit
  rw [hnp]

/-- Facts delivered by the post-scheme stages: the netloc has no
delimiter, the path has no `'?'`/`'#'`, the query has no `'#'`, and all
three are drawn from the characters of `rest`. -/
theorem postSchemeSplit_facts (s rest : List Char) :
    (∀ c ∈ (postSchemeSplit s rest).netloc, isNetlocEnd c = false ∧ c ∈ rest) ∧
    (∀ c ∈ (postSchemeSplit s rest).path, c ≠ '?' ∧ c ≠ '#' ∧ c ∈ rest) ∧
    (∀ c ∈ (postSchemeSplit s rest).query, c ≠ '#' ∧ c ∈ rest) := by
  rcases hnp : (if rest.take 2 = ['/', '/'] then splitNetloc (rest.drop 2)
    else ([], rest)) with ⟨nl, mid⟩
  have hmid : ∀ x ∈ mid, x ∈ rest := by
    intro x hx
    by_cases hm : rest.take 2 = ['/', '/']
    · rw [if_pos hm] at hnp
      have : mid = (rest.drop 2).dropWhile (fun c => !isNetlocEnd c) := by
        have := congrArg Prod.snd hnp
        simpa [splitNetloc] using this.symm
      rw [this] at hx
      exact mem_of_mem_dropL 2 rest x (mem_of_mem_dropWhileL _ _ x hx)
    · rw [if_neg hm] at hnp
      have : mid = rest := by
        have := congrArg Prod.snd hnp
        simpa using this.symm
      rwa [this] at hx
  have hnet : ∀ x ∈ nl, isNetlocEnd x = false ∧ x ∈ rest := by
    intro x hx
    by_cases hm : rest.take 2 = ['/', '/']
    · rw [if_pos hm] at hnp
      have : nl = (rest.drop 2).takeWhile (fun c => !isNetlocEnd c) := by
        have := congrArg Prod.fst hnp
        simpa [splitNetloc] using this.symm
      rw [this] at hx
      obtain ⟨hp, hmem⟩ := mem_takeWhile_sat _ _ x hx
      exact ⟨by simpa using hp, mem_of_mem_dropL 2 rest x hmem⟩
    · rw [if_neg hm] at hnp
      have : nl = [] := by
        have := congrArg Prod.fst hnp
        simpa using this.symm
      rw [this] at hx
      cases hx
  rw [postSchemeSplit_eq s rest nl mid hnp]
  obtain ⟨hpa, hqu⟩ := splitFragmentQuery_facts mid
  refine ⟨hnet, ?_, ?_⟩
  · intro c hc
    obtain ⟨h1, h2, h3⟩ := hpa c hc
    exact ⟨h1, h2, hmid c h3⟩
  · intro c hc
    obtain ⟨h1, h2⟩ := hqu c hc
    exact ⟨h1, hmid c h2⟩

/-- `urlsplit` on a string with an explicit, already-lower-case scheme. -/
theorem urlsplit_explicit (s rest d : List Char) (hs : validLowerScheme s)
    (hcl : removeUnsafeBytes (s ++ ':' :: rest) = s ++ ':' :: rest) :
    urlsplit (s ++ ':' :: rest) d = postSchemeSplit s rest := by
  have hlst : lstripC0 (s ++ ':' :: rest) = s ++ ':' :: rest := by
    apply lstripC0_eq_self
    rcases hsc : s with _ | ⟨c, cs⟩
    · cases hs.1 hsc
    · have hhead := hs.2.1
      rw [hsc] at hhead
      have hca : c.isAlpha = true := by simpa using hhead
      have := alpha_not_c0 c hca
      simp [this]
  show postSchemeSplit
      (splitScheme (removeUnsafeBytes (stripC0 d))
        (removeUnsafeBytes (lstripC0 (s ++ ':' :: rest)))).1
      (splitScheme (removeUnsafeBytes (stripC0 d))
        (removeUnsafeBytes (lstripC0 (s ++ ':' :: rest)))).2 = postSchemeSplit s rest
  rw [hlst, hcl, splitScheme_explicit (removeUnsafeBytes (stripC0 d)) s rest hs]

/-! ### More list infrastructure for the idempotence analysis -/

theorem take_two_decomp (l : List Char) (a b : Char) (h : l.take 2 = [a, b]) :
    ∃ t, l = a :: b :: t := by
  rcases l with _ | ⟨x, _ | ⟨y, t⟩⟩
  · simp at h
  · simp at h
  · have h2 : x = a ∧ y = b := by simpa using h
    exact ⟨t, by rw [h2.1, h2.2]⟩

theorem rstrip_leading (l : List Char) : rstripSlashL l <+: l := by
  unfold rstripSlashL
  have hsfx := List.dropWhile_suffix (l := l.reverse) (fun c => c = '/')
  have := List.reverse_prefix.mpr hsfx
  simpa using this

theorem rstrip_head? (l : List Char) :
    rstripSlashL l = [] ∨ (rstripSlashL l).head? = l.head? := by
  obtain ⟨t, ht⟩ := rstrip_leading l
  rcases hr : rstripSlashL l with _ | ⟨c, cs⟩
  · exact Or.inl rfl
  · right
    rw [hr] at ht
    rw [← ht]
    rfl

theorem rstrip_append_keep (x y : List Char) (hx : x.getLast? ≠ some '/') :
    rstripSlashL (x ++ y) = x ++ rstripSlashL y := by
  rw [rstripSlashL_append]
  by_cases h : rstripSlashL y = []
  · simp [h, rstripSlashL_eq_self x hx]
  · simp [h]

theorem rstrip_take2 (l : List Char) (h : l.take 2 = ['/', '/']) :
    rstripSlashL l = [] ∨ (rstripSlashL l).take 2 = ['/', '/'] := by
  obtain ⟨t, hl⟩ := take_two_decomp l '/' '/' h
  subst hl
  have hx : ('/' :: '/' :: t) = ['/', '/'] ++ t := rfl
  rw [hx, rstripSlashL_append]
  by_cases ht : rstripSlashL t = []
  · left
    rw [if_pos ht]
    decide
  · right
    rw [if_neg ht]
    rw [List.take_append_of_le_length (by decide)]
    decide

/-! ### Good characters (nothing `urlsplit` deletes) -/

theorem goodChars_nil : goodChars [] := by
  intro c hc
  cases hc

theorem goodChars_append (x y : List Char) (hx : goodChars x) (hy : goodChars y) :
    goodChars (x ++ y) := by
  intro c hc
  rcases List.mem_append.mp hc with h | h
  · exact hx c h
  · exact hy c h

theorem goodChars_of_sub (x y : List Char) (h : ∀ c ∈ x, c ∈ y) (hy : goodChars y) :
    goodChars x :=
  fun c hc => hy c (h c hc)

theorem goodChars_cons (c : Char) (l : List Char)
    (hc : ¬(c = '\t' ∨ c = '\r' ∨ c = '\n')) (hl : goodChars l) : goodChars (c :: l) := by
  intro x hx
  rcases List.mem_cons.mp hx with h | h
  · exact h ▸ hc
  · exact hl x h

theorem goodChars_remove (l : List Char) : goodChars (removeUnsafeBytes l) :=
  removeUnsafeBytes_no_bad l

theorem goodChars_self (l : List Char) (h : goodChars l) : removeUnsafeBytes l = l :=
  removeUnsafeBytes_eq_self l h

theorem schemeChars_spec : ∀ c ∈ schemeChars,
    ¬(c = '\t' ∨ c = '\r' ∨ c = '\n') ∧ c ≠ ':' ∧ c ≠ '/' ∧ c ≠ '?' ∧ c ≠ '#' := by
  decide

theorem valid_scheme_spec (s : List Char) (h : s.all schemeChars.contains = true) :
    ∀ c ∈ s, ¬(c = '\t' ∨ c = '\r' ∨ c = '\n') ∧ c ≠ ':' ∧ c ≠ '/' ∧ c ≠ '?' ∧ c ≠ '#' := by
  intro c hc
  have hct := List.all_eq_true.mp h c hc
  have hmem : c ∈ schemeChars := by simpa using hct
  exact schemeChars_spec c hmem

theorem valid_scheme_good (s : List Char) (h : s.all schemeChars.contains = true) :
    goodChars s :=
  fun c hc => (valid_scheme_spec s h c hc).1

/-! ### `splitScheme` dichotomy and the irrelevance of the default -/

theorem map_toLower_idem (l : List Char) :
    List.map Char.toLower (List.map Char.toLower l) = List.map Char.toLower l := by
  induction l with
  | nil => rfl
  | cons c cs ih => simp only [List.map_cons, char_toLower_toLower, ih]

theorem splitScheme_snd_sub (d l : List Char) : ∀ x ∈ (splitScheme d l).2, x ∈ l := by
  rcases hso : splitOnce ':' l with _ | ⟨sc, post⟩
  · unfold splitScheme
    rw [hso]
    intro x hx
    exact hx
  · obtain ⟨hdec, _⟩ := splitOnce_some_decomp ':' l _ hso
    have hdec2 : l = sc ++ ':' :: post := hdec
    unfold splitScheme
    rw [hso]
    show ∀ x ∈ (if sc ≠ [] ∧ Option.any Char.isAlpha sc.head? = true ∧
        sc.all schemeChars.contains = true then
        (List.map Char.toLower sc, post) else (d, l)).2, x ∈ l
    split_ifs with h
    · intro x hx
      rw [hdec2]
      simp only at hx
      simp [hx]
    · intro x hx
      exact hx

theorem splitScheme_dichotomy (l : List Char) :
    (∀ d, splitScheme d l = (d, l)) ∨
    (validLowerScheme (splitScheme [] l).1 ∧ ∀ d, splitScheme d l = splitScheme [] l) := by
  rcases hso : splitOnce ':' l with _ | ⟨sc, post⟩
  · left
    intro d
    unfold splitScheme
    rw [hso]
  · by_cases hcond : sc ≠ [] ∧ Option.any Char.isAlpha sc.head? = true ∧
        sc.all schemeChars.contains = true
    · right
      have hcomp : ∀ d, splitScheme d l = (sc.map Char.toLower, post) := by
        intro d
        unfold splitScheme
        rw [hso]
        show (if sc ≠ [] ∧ Option.any Char.isAlpha sc.head? = true ∧
            sc.all schemeChars.contains = true then
            (List.map Char.toLower sc, post) else (d, l)) = (sc.map Char.toLower, post)
        rw [if_pos hcond]
      constructor
      · rw [hcomp []]
        refine ⟨by simpa using hcond.1, ?_, ?_, map_toLower_idem sc⟩
        · rcases hsc : sc with _ | ⟨c, cs⟩
          · exact absurd hsc hcond.1
          · have hha := hcond.2.1
            rw [hsc] at hha
            have hca : c.isAlpha = true := by simpa using hha
            simp only [List.map_cons, List.head?_cons, Option.any_some]
            rw [char_isAlpha_toLower]
            exact hca
        · rw [List.all_eq_true]
          intro x hx
          obtain ⟨c, hc, hcx⟩ := List.mem_map.mp hx
          exact hcx ▸ schemeChars_toLower c (List.all_eq_true.mp hcond.2.2 c hc)
      · intro d
        rw [hcomp d, hcomp []]
    · left
      intro d
      unfold splitScheme
      rw [hso]
      show (if sc ≠ [] ∧ Option.any Char.isAlpha sc.head? = true ∧
          sc.all schemeChars.contains = true then
          (List.map Char.toLower sc, post) else (d, l)) = (d, l)
      rw [if_neg hcond]

/-- `urlsplit` written as the composite of its stages (definitional). -/
theorem urlsplit_eq (u d : List Char) :
    urlsplit u d = postSchemeSplit
      (splitScheme (removeUnsafeBytes (stripC0 d)) (removeUnsafeBytes (lstripC0 u))).1
      (splitScheme (removeUnsafeBytes (stripC0 d)) (removeUnsafeBytes (lstripC0 u))).2 := rfl

/-- The netloc, path, query and fragment of `urlsplit` do not depend on
the default scheme. -/
theorem urlsplit_dflt_comps (u d : List Char) :
    (urlsplit u d).netloc = (urlsplit u []).netloc ∧
    (urlsplit u d).path = (urlsplit u []).path ∧
    (urlsplit u d).query = (urlsplit u []).query ∧
    (urlsplit u d).fragment = (urlsplit u []).fragment := by
  rw [urlsplit_eq u d, urlsplit_eq u []]
  rcases splitScheme_dichotomy (removeUnsafeBytes (lstripC0 u)) with h | ⟨_, h⟩
  · rw [h, h]
    exact ⟨rfl, rfl, rfl, rfl⟩
  · rw [h, h]
    exact ⟨rfl, rfl, rfl, rfl⟩

/-- The scheme of `urlsplit` is the (cleaned) default, or an explicit
valid lower-case scheme that every default yields alike. -/
theorem urlsplit_dflt_scheme (u d : List Char) :
    (urlsplit u d).scheme = removeUnsafeBytes (stripC0 d) ∨
    (validLowerScheme (urlsplit u d).scheme ∧
      (urlsplit u d).scheme = (urlsplit u []).scheme) := by
  rw [urlsplit_eq u d, urlsplit_eq u []]
  rcases splitScheme_dichotomy (removeUnsafeBytes (lstripC0 u)) with h | ⟨hv, h⟩
  · left
    rw [h]
    rfl
  · right
    rw [h, h]
    exact ⟨hv, rfl⟩

/-! ### Fragment component facts -/

theorem splitFragmentQuery_frag_sub (mid : List Char) :
    ∀ c ∈ (splitFragmentQuery mid).2.2, c ∈ mid := by
  rcases hfp : splitOnce '#' mid with _ | ⟨bf, frag⟩
  · rcases hqp : splitOnce '?' mid with _ | ⟨pa, qu⟩
    · simp only [splitFragmentQuery, hfp, hqp]
      intro c hc
      cases hc
    · simp only [splitFragmentQuery, hfp, hqp]
      intro c hc
      cases hc
  · obtain ⟨hdec, _⟩ := splitOnce_some_decomp '#' mid _ hfp
    have hdec2 : mid = bf ++ '#' :: frag := hdec
    rcases hqp : splitOnce '?' bf with _ | ⟨pa, qu⟩
    · simp only [splitFragmentQuery, hfp, hqp]
      intro c hc
      rw [hdec2]
      simp [hc]
    · simp only [splitFragmentQuery, hfp, hqp]
      intro c hc
      rw [hdec2]
      simp [hc]

theorem mid_sub_of_netloc_split (rest nl mid : List Char)
    (hnp : (if rest.take 2 = ['/', '/'] then splitNetloc (rest.drop 2)
      else ([], rest)) = (nl, mid)) : ∀ x ∈ mid, x ∈ rest := by
  intro x hx
  by_cases hm : rest.take 2 = ['/', '/']
  · rw [if_pos hm] at hnp
    have : mid = (rest.drop 2).dropWhile (fun c => !isNetlocEnd c) := by
      have := congrArg Prod.snd hnp
      simpa [splitNetloc] using this.symm
    rw [this] at hx
    exact mem_of_mem_dropL 2 rest x (mem_of_mem_dropWhileL _ _ x hx)
  · rw [if_neg hm] at hnp
    have : mid = rest := by
      have := congrArg Prod.snd hnp
      simpa using this.symm
    rwa [this] at hx

theorem postSchemeSplit_frag_sub (s rest : List Char) :
    ∀ c ∈ (postSchemeSplit s rest).fragment, c ∈ rest := by
  rcases hnp : (if rest.take 2 = ['/', '/'] then splitNetloc (rest.drop 2)
    else ([], rest)) with ⟨nl, mid⟩
  have hmid := mid_sub_of_netloc_split rest nl mid hnp
  rw [postSchemeSplit_eq s rest nl mid hnp]
  intro c hc
  exact hmid c (splitFragmentQuery_frag_sub mid c hc)

theorem postSchemeSplit_frag_nil (s rest : List Char) (hh : '#' ∉ rest) :
    (postSchemeSplit s rest).fragment = [] := by
  rcases hnp : (if rest.take 2 = ['/', '/'] then splitNetloc (rest.drop 2)
    else ([], rest)) with ⟨nl, mid⟩
  have hmid := mid_sub_of_netloc_split rest nl mid hnp
  have hh2 : '#' ∉ mid := fun h => hh (hmid _ h)
  rw [postSchemeSplit_eq s rest nl mid hnp]
  show (splitFragmentQuery mid).2.2 = []
  have hfp := (splitOnce_none_iff '#' mid).mpr hh2
  rcases hqp : splitOnce '?' mid with _ | ⟨pa, qu⟩ <;>
    simp [splitFragmentQuery, hfp, hqp]

/-- Every component of `urlsplit` consists of good characters. -/
theorem urlsplit_good (u d : List Char) :
    goodChars (urlsplit u d).scheme ∧ goodChars (urlsplit u d).netloc ∧
    goodChars (urlsplit u d).path ∧ goodChars (urlsplit u d).query ∧
    goodChars (urlsplit u d).fragment := by
  have hrest : goodChars (splitScheme (removeUnsafeBytes (stripC0 d))
      (removeUnsafeBytes (lstripC0 u))).2 :=
    goodChars_of_sub _ _ (splitScheme_snd_sub _ _) (goodChars_remove _)
  refine ⟨?_, ?_, ?_, ?_, ?_⟩
  · rcases urlsplit_dflt_scheme u d with h | ⟨hv, _⟩
    · rw [h]
      exact goodChars_remove _
    · exact valid_scheme_good _ hv.2.2.1
  · rw [urlsplit_eq u d]
    exact goodChars_of_sub _ _
      (fun c hc => ((postSchemeSplit_facts _ _).1 c hc).2) hrest
  · rw [urlsplit_eq u d]
    exact goodChars_of_sub _ _
      (fun c hc => ((postSchemeSplit_facts _ _).2.1 c hc).2.2) hrest
  · rw [urlsplit_eq u d]
    exact goodChars_of_sub _ _
      (fun c hc => ((postSchemeSplit_facts _ _).2.2 c hc).2) hrest
  · rw [urlsplit_eq u d]
    exact goodChars_of_sub _ _ (postSchemeSplit_frag_sub _ _) hrest

/-! ### `_splitparams` and the `geturl` rejoin -/

theorem splitparams_sub (p : List Char) :
    (∀ c ∈ (splitparams p).1, c ∈ p) ∧ (∀ c ∈ (splitparams p).2, c ∈ p) := by
  rcases hsl : splitLast '/' p with _ | ⟨front, last⟩
  · rcases hso : splitOnce ';' p with _ | ⟨a, b⟩
    · simp only [splitparams, hsl, hso]
      refine ⟨fun c hc => hc, fun c hc => ?_⟩
      cases hc
    · obtain ⟨hdec, _⟩ := splitOnce_some_decomp ';' p _ hso
      have hdec2 : p = a ++ ';' :: b := hdec
      simp only [splitparams, hsl, hso]
      constructor
      · intro c hc
        rw [hdec2]
        simp [hc]
      · intro c hc
        rw [hdec2]
        simp [hc]
  · obtain ⟨hdecl, _⟩ := splitLast_some_decomp '/' p _ hsl
    have hdecl2 : p = front ++ '/' :: last := hdecl
    rcases hso : splitOnce ';' last with _ | ⟨a, b⟩
    · simp only [splitparams, hsl, hso]
      refine ⟨fun c hc => hc, fun c hc => ?_⟩
      cases hc
    · obtain ⟨hdeca, _⟩ := splitOnce_some_decomp ';' last _ hso
      have hdeca2 : last = a ++ ';' :: b := hdeca
      simp only [splitparams, hsl, hso]
      constructor
      · intro c hc
        rw [hdecl2, hdeca2]
        rcases List.mem_append.mp hc with h | h
        · simp [h]
        · rcases List.mem_cons.mp h with h | h
          · subst h
            simp
          · simp [h]
      · intro c hc
        rw [hdecl2, hdeca2]
        simp [hc]

theorem paramsRejoin_cases (s p : List Char) :
    paramsRejoin s p = p ∨ p = paramsRejoin s p ++ [';'] := by
  by_cases hc : s ∈ usesParams ∧ ';' ∈ p
  · have heq : paramsRejoin s p =
        (if (splitparams p).2 ≠ [] then (splitparams p).1 ++ ';' :: (splitparams p).2
         else (splitparams p).1) := by
      unfold paramsRejoin
      rw [if_pos hc]
    rw [heq]
    rcases hsl : splitLast '/' p with _ | ⟨front, last⟩
    · rcases hso : splitOnce ';' p with _ | ⟨a, b⟩
      · exact absurd hc.2 ((splitOnce_none_iff ';' p).mp hso)
      · obtain ⟨hdec, _⟩ := splitOnce_some_decomp ';' p _ hso
        have hdec2 : p = a ++ ';' :: b := hdec
        have hpr : splitparams p = (a, b) := by simp only [splitparams, hsl, hso]
        rw [hpr]
        split_ifs with h2
        · left
          rw [hdec2]
        · right
          have hb : b = [] := by simpa using h2
          subst hb
          rw [hdec2]
    · obtain ⟨hdecl, _⟩ := splitLast_some_decomp '/' p _ hsl
      have hdecl2 : p = front ++ '/' :: last := hdecl
      rcases hso : splitOnce ';' last with _ | ⟨a, b⟩
      · have hpr : splitparams p = (p, []) := by simp only [splitparams, hsl, hso]
        rw [hpr]
        split_ifs with h2
        · exact absurd rfl h2
        · left
          rfl
      · obtain ⟨hdeca, _⟩ := splitOnce_some_decomp ';' last _ hso
        have hdeca2 : last = a ++ ';' :: b := hdeca
        have hpr : splitparams p = (front ++ '/' :: a, b) := by
          simp only [splitparams, hsl, hso]
        rw [hpr]
        split_ifs with h2
        · left
          rw [hdecl2, hdeca2]
          simp
        · right
          have hb : b = [] := by simpa using h2
          subst hb
          rw [hdecl2, hdeca2]
          simp
  · left
    unfold paramsRejoin
    rw [if_neg hc]

theorem paramsRejoin_sub (s p : List Char) : ∀ c ∈ paramsRejoin s p, c ∈ p := by
  rcases paramsRejoin_cases s p with h | h
  · rw [h]
    exact fun c hc => hc
  · intro c hc
    rw [h]
    exact List.mem_append.mpr (Or.inl hc)

theorem paramsRejoin_nil (s : List Char) : paramsRejoin s [] = [] := by
  simp [paramsRejoin]

/-! ### `fixSlash` and the assembled body of `urlunsplit` -/

theorem fixSlash_nil : fixSlash [] = [] := by
  simp [fixSlash]

theorem fixSlash_head (p : List Char) (hp : p ≠ []) : (fixSlash p).head? = some '/' := by
  unfold fixSlash
  split_ifs with h
  · rfl
  · push_neg at h
    have h1 := h hp
    rcases p with _ | ⟨c, cs⟩
    · cases hp rfl
    · have hcc : c = '/' := by simpa using h1
      rw [hcc]
      rfl

theorem fixSlash_sub (p : List Char) : ∀ c ∈ fixSlash p, c ∈ p ∨ c = '/' := by
  unfold fixSlash
  split_ifs with h
  · intro c hc
    rcases List.mem_cons.mp hc with h1 | h1
    · exact Or.inr h1
    · exact Or.inl h1
  · exact fun c hc => Or.inl hc

theorem fixSlash_eq_self (p : List Char) (h : p = [] ∨ p.take 1 = ['/']) :
    fixSlash p = p := by
  unfold fixSlash
  rcases h with h | h
  · subst h
    simp
  · rw [if_neg (by rintro ⟨h1, h2⟩; exact h2 h)]

theorem fixSlash_of_head (p : List Char) (hp : p.head? = some '/') : fixSlash p = p := by
  rcases p with _ | ⟨c, cs⟩
  · simp at hp
  · have hcc : c = '/' := by simpa using hp
    subst hcc
    exact fixSlash_eq_self _ (Or.inr rfl)

theorem urlunsplit_body (c : SplitResult) :
    urlunsplit c = if c.scheme ≠ [] then c.scheme ++ ':' :: unsplitBody c
      else unsplitBody c := by
  simp only [urlunsplit, unsplitBody]
  split_ifs <;> simp [List.append_assoc]

theorem unsplitBody_sub (c : SplitResult) :
    ∀ x ∈ unsplitBody c, x ∈ c.netloc ∨ x ∈ c.path ∨ x ∈ c.query ∨ x ∈ c.fragment ∨
      x = '/' ∨ (x = '?' ∧ c.query ≠ []) ∨ (x = '#' ∧ c.fragment ≠ []) := by
  intro x hx
  unfold unsplitBody at hx
  rcases List.mem_append.mp hx with hx1 | hx1
  · rcases List.mem_append.mp hx1 with hx2 | hx2
    · by_cases h1 : c.netloc ≠ [] ∨ (c.scheme ≠ [] ∧ c.scheme ∈ usesNetloc ∧
          c.path.take 2 ≠ ['/', '/'])
      · rw [if_pos h1] at hx2
        rcases List.mem_cons.mp hx2 with h | h
        · exact Or.inr (Or.inr (Or.inr (Or.inr (Or.inl h))))
        rcases List.mem_cons.mp h with h | h
        · exact Or.inr (Or.inr (Or.inr (Or.inr (Or.inl h))))
        rcases List.mem_append.mp h with h | h
        · exact Or.inl h
        rcases fixSlash_sub c.path x h with h | h
        · exact Or.inr (Or.inl h)
        · exact Or.inr (Or.inr (Or.inr (Or.inr (Or.inl h))))
      · rw [if_neg h1] at hx2
        exact Or.inr (Or.inl hx2)
    · by_cases h2 : c.query ≠ []
      · rw [if_pos h2] at hx2
        rcases List.mem_cons.mp hx2 with h | h
        · exact Or.inr (Or.inr (Or.inr (Or.inr (Or.inr (Or.inl ⟨h, h2⟩)))))
        · exact Or.inr (Or.inr (Or.inl h))
      · rw [if_neg h2] at hx2
        cases hx2
  · by_cases h3 : c.fragment ≠ []
    · rw [if_pos h3] at hx1
      rcases List.mem_cons.mp hx1 with h | h
      · exact Or.inr (Or.inr (Or.inr (Or.inr (Or.inr (Or.inr ⟨h, h3⟩)))))
      · exact Or.inr (Or.inr (Or.inr (Or.inl h)))
    · rw [if_neg h3] at hx1
      cases hx1

theorem splitNetloc_append (n t : List Char) (hn : ∀ c ∈ n, isNetlocEnd c = false)
    (ht : t.head?.all isNetlocEnd = true) : splitNetloc (n ++ t) = (n, t) := by
  unfold splitNetloc
  obtain ⟨h1, h2⟩ := takeWhile_append_all (fun c => !isNetlocEnd c) n t
    (fun x hx => by simp [hn x hx])
    (by rcases t with _ | ⟨c, cs⟩
        · rfl
        · simpa using ht)
  rw [h1, h2]

/-! ### Membership through the path-resolution combinators -/

theorem mem_splitAll (c : Char) :
    ∀ (l : List Char) (seg : List Char), seg ∈ splitAll c l → ∀ x ∈ seg, x ∈ l := by
  intro l
  induction l with
  | nil =>
    intro seg hseg x hx
    simp only [splitAll, List.mem_singleton] at hseg
    subst hseg
    cases hx
  | cons a as ih =>
    intro seg hseg x hx
    simp only [splitAll] at hseg
    by_cases ha : a = c
    · rw [if_pos ha] at hseg
      rcases List.mem_cons.mp hseg with h | h
      · subst h
        cases hx
      · exact List.mem_cons_of_mem _ (ih seg h x hx)
    · rw [if_neg ha] at hseg
      rcases hr : splitAll c as with _ | ⟨h0, t0⟩
      · rw [hr] at hseg
        simp only [List.mem_singleton] at hseg
        subst hseg
        have : x = a := by simpa using hx
        simp [this]
      · rw [hr] at hseg
        rcases List.mem_cons.mp hseg with h | h
        · subst h
          rcases List.mem_cons.mp hx with h | h
          · simp [h]
          · exact List.mem_cons_of_mem _ (ih h0 (by rw [hr]; simp) x h)
        · exact List.mem_cons_of_mem _ (ih seg (by rw [hr]; exact List.mem_cons_of_mem _ h) x hx)

theorem mem_filterMiddleSegs (l : List (List Char)) :
    ∀ seg ∈ filterMiddleSegs l, seg ∈ l := by
  intro seg hseg
  rcases l with _ | ⟨a, rest⟩
  · cases hseg
  · rcases rest with _ | ⟨b, t⟩
    · simpa [filterMiddleSegs] using hseg
    · simp only [filterMiddleSegs] at hseg
      rcases List.mem_cons.mp hseg with h | h
      · simp [h]
      rcases List.mem_append.mp h with h | h
      · exact List.mem_cons_of_mem _ (List.dropLast_subset _ (List.mem_of_mem_filter h))
      · simp only [List.mem_singleton] at h
        subst h
        rw [List.getLastD_eq_getLast?]
        rcases hlast : (b :: t).getLast? with _ | v
        · rw [List.getLast?_eq_none_iff] at hlast
          cases hlast
        · simp only [Option.getD_some]
          exact List.mem_cons_of_mem _ (List.mem_of_mem_getLast? hlast)

theorem resolve_aux (segs : List (List Char)) :
    ∀ (acc : List (List Char)) (x : List Char),
      x ∈ List.foldl (fun acc seg =>
        if seg = ['.', '.'] then acc.dropLast
        else if seg = ['.'] then acc else acc ++ [seg]) acc segs →
      x ∈ acc ∨ x ∈ segs := by
  induction segs with
  | nil =>
    intro acc x hx
    exact Or.inl hx
  | cons s t ih =>
    intro acc x hx
    rw [List.foldl_cons] at hx
    rcases ih _ x hx with h | h
    · split_ifs at h with h1 h2
      · exact Or.inl (List.dropLast_subset acc h)
      · exact Or.inl h
      · rcases List.mem_append.mp h with h | h
        · exact Or.inl h
        · simp only [List.mem_singleton] at h
          subst h
          exact Or.inr (by simp)
    · exact Or.inr (List.mem_cons_of_mem _ h)

theorem mem_resolveSegs (segs : List (List Char)) :
    ∀ x ∈ resolveSegs segs, x ∈ segs := by
  intro x hx
  unfold resolveSegs at hx
  rcases resolve_aux segs [] x hx with h | h
  · cases h
  · exact h

theorem mem_intercalateSlash :
    ∀ (segs : List (List Char)) (x : Char), x ∈ List.intercalate ['/'] segs →
      x = '/' ∨ ∃ seg ∈ segs, x ∈ seg := by
  intro segs
  induction segs with
  | nil =>
    intro x hx
    simp [List.intercalate] at hx
  | cons a t ih =>
    intro x hx
    rcases t with _ | ⟨b, t2⟩
    · right
      refine ⟨a, by simp, ?_⟩
      simpa [List.intercalate] using hx
    · have heq : List.intercalate ['/'] (a :: b :: t2) =
          a ++ ['/'] ++ List.intercalate ['/'] (b :: t2) := by
        simp [List.intercalate, List.intersperse]
      rw [heq] at hx
      rcases List.mem_append.mp hx with h | h
      · rcases List.mem_append.mp h with h | h
        · exact Or.inr ⟨a, by simp, h⟩
        · simp only [List.mem_singleton] at h
          exact Or.inl h
      · rcases ih x h with h | ⟨seg, hs, hxs⟩
        · exact Or.inl h
        · exact Or.inr ⟨seg, List.mem_cons_of_mem _ hs, hxs⟩

/-! ### `urlparse`, `urlunparse`, and the defragment step -/

theorem urlparse_comp (u d : List Char) :
    (urlparse u d).scheme = (urlsplit u d).scheme ∧
    (urlparse u d).netloc = (urlsplit u d).netloc ∧
    (urlparse u d).query = (urlsplit u d).query ∧
    (urlparse u d).fragment = (urlsplit u d).fragment := by
  by_cases h : (urlsplit u d).scheme ∈ usesParams ∧ ';' ∈ (urlsplit u d).path
  · have hp : urlparse u d = ⟨(urlsplit u d).scheme, (urlsplit u d).netloc,
        (splitparams (urlsplit u d).path).1, (splitparams (urlsplit u d).path).2,
        (urlsplit u d).query, (urlsplit u d).fragment⟩ := by
      unfold urlparse
      rw [if_pos h]
    rw [hp]
    exact ⟨rfl, rfl, rfl, rfl⟩
  · have hp : urlparse u d = ⟨(urlsplit u d).scheme, (urlsplit u d).netloc,
        (urlsplit u d).path, [], (urlsplit u d).query, (urlsplit u d).fragment⟩ := by
      unfold urlparse
      rw [if_neg h]
    rw [hp]
    exact ⟨rfl, rfl, rfl, rfl⟩

theorem urlunparse_urlparse (u d : List Char) :
    urlunparse (urlparse u d) = urlunsplit ⟨(urlsplit u d).scheme, (urlsplit u d).netloc,
      paramsRejoin (urlsplit u d).scheme (urlsplit u d).path, (urlsplit u d).query,
      (urlsplit u d).fragment⟩ := by
  by_cases h : (urlsplit u d).scheme ∈ usesParams ∧ ';' ∈ (urlsplit u d).path
  · have hp : urlparse u d = ⟨(urlsplit u d).scheme, (urlsplit u d).netloc,
        (splitparams (urlsplit u d).path).1, (splitparams (urlsplit u d).path).2,
        (urlsplit u d).query, (urlsplit u d).fragment⟩ := by
      unfold urlparse
      rw [if_pos h]
    have hj : paramsRejoin (urlsplit u d).scheme (urlsplit u d).path =
        if (splitparams (urlsplit u d).path).2 ≠ []
        then (splitparams (urlsplit u d).path).1 ++
          ';' :: (splitparams (urlsplit u d).path).2
        else (splitparams (urlsplit u d).path).1 := by
      unfold paramsRejoin
      rw [if_pos h]
    rw [hp, hj]
    rfl
  · have hp : urlparse u d = ⟨(urlsplit u d).scheme, (urlsplit u d).netloc,
        (urlsplit u d).path, [], (urlsplit u d).query, (urlsplit u d).fragment⟩ := by
      unfold urlparse
      rw [if_neg h]
    have hj : paramsRejoin (urlsplit u d).scheme (urlsplit u d).path =
        (urlsplit u d).path := by
      unfold paramsRejoin
      rw [if_neg h]
    rw [hp, hj]
    rfl

theorem defrag_eq (y : List Char) :
    defragmentL y = urlunsplit ⟨(urlsplit y []).scheme, (urlsplit y []).netloc,
      paramsRejoin (urlsplit y []).scheme (urlsplit y []).path,
      (urlsplit y []).query, []⟩ := by
  by_cases h : (urlsplit y []).scheme ∈ usesParams ∧ ';' ∈ (urlsplit y []).path
  · have hp : urlparse y [] = ⟨(urlsplit y []).scheme, (urlsplit y []).netloc,
        (splitparams (urlsplit y []).path).1, (splitparams (urlsplit y []).path).2,
        (urlsplit y []).query, (urlsplit y []).fragment⟩ := by
      unfold urlparse
      rw [if_pos h]
    have hj : paramsRejoin (urlsplit y []).scheme (urlsplit y []).path =
        if (splitparams (urlsplit y []).path).2 ≠ []
        then (splitparams (urlsplit y []).path).1 ++
          ';' :: (splitparams (urlsplit y []).path).2
        else (splitparams (urlsplit y []).path).1 := by
      unfold paramsRejoin
      rw [if_pos h]
    unfold defragmentL
    rw [hp, hj]
    rfl
  · have hp : urlparse y [] = ⟨(urlsplit y []).scheme, (urlsplit y []).netloc,
        (urlsplit y []).path, [], (urlsplit y []).query, (urlsplit y []).fragment⟩ := by
      unfold urlparse
      rw [if_neg h]
    have hj : paramsRejoin (urlsplit y []).scheme (urlsplit y []).path =
        (urlsplit y []).path := by
      unfold paramsRejoin
      rw [if_neg h]
    unfold defragmentL
    rw [hp, hj]
    rfl

/-! ### Reparsing an assembled URL with a non-empty authority -/

theorem goodChars_unsplitBody (s n p q f : List Char)
    (hgn : goodChars n) (hgp : goodChars p) (hgq : goodChars q) (hgf : goodChars f) :
    goodChars (unsplitBody ⟨s, n, p, q, f⟩) := by
  intro x hx
  rcases unsplitBody_sub _ x hx with h | h | h | h | h | ⟨h, _⟩ | ⟨h, _⟩
  · exact hgn x h
  · exact hgp x h
  · exact hgq x h
  · exact hgf x h
  · subst h
    decide
  · subst h
    decide
  · subst h
    decide

theorem unsplitBody_netloc_form (s n p q f : List Char) (hnne : n ≠ []) :
    unsplitBody ⟨s, n, p, q, f⟩ =
      '/' :: '/' :: (n ++ (fixSlash p ++ ((if q ≠ [] then '?' :: q else []) ++
        (if f ≠ [] then '#' :: f else [])))) := by
  unfold unsplitBody
  show (if n ≠ [] ∨ (s ≠ [] ∧ s ∈ usesNetloc ∧ p.take 2 ≠ ['/', '/'])
      then '/' :: '/' :: (n ++ fixSlash p) else p) ++
    (if q ≠ [] then '?' :: q else []) ++ (if f ≠ [] then '#' :: f else []) = _
  rw [if_pos (Or.inl hnne)]
  simp [List.append_assoc]

theorem tail_head_netlocEnd (p q f : List Char) :
    (fixSlash p ++ ((if q ≠ [] then '?' :: q else []) ++
      (if f ≠ [] then '#' :: f else []))).head?.all isNetlocEnd = true := by
  rcases hp : p with _ | ⟨c, cs⟩
  · rw [fixSlash_nil]
    simp only [List.nil_append]
    by_cases hq : q ≠ []
    · rw [if_pos hq]
      rfl
    · rw [if_neg hq]
      simp only [List.nil_append]
      by_cases hf : f ≠ []
      · rw [if_pos hf]
        rfl
      · rw [if_neg hf]
        rfl
  · have hhd : (fixSlash (c :: cs)).head? = some '/' := fixSlash_head _ (by simp)
    rcases hfx : fixSlash (c :: cs) with _ | ⟨d, ds⟩
    · rw [hfx] at hhd
      cases hhd
    · rw [hfx] at hhd
      have hd : d = '/' := by simpa using hhd
      subst hd
      rfl

/-- Reparsing `urlunsplit` output with a valid lower-case scheme and a
non-empty, delimiter-free netloc returns the same scheme and netloc. -/
theorem urlsplit_unsplit_netloc (s n p q f : List Char) (hs : validLowerScheme s)
    (hgn : goodChars n) (hgp : goodChars p) (hgq : goodChars q) (hgf : goodChars f)
    (hn : ∀ c ∈ n, isNetlocEnd c = false) (hnne : n ≠ []) :
    (urlsplit (urlunsplit ⟨s, n, p, q, f⟩) []).scheme = s ∧
    (urlsplit (urlunsplit ⟨s, n, p, q, f⟩) []).netloc = n := by
  have hs0 : s ≠ [] := hs.1
  have hbody : urlunsplit ⟨s, n, p, q, f⟩ = s ++ ':' :: unsplitBody ⟨s, n, p, q, f⟩ := by
    rw [urlunsplit_body]
    show (if s ≠ [] then s ++ ':' :: unsplitBody ⟨s, n, p, q, f⟩
      else unsplitBody ⟨s, n, p, q, f⟩) = _
    rw [if_pos hs0]
  have hgood : goodChars (s ++ ':' :: unsplitBody ⟨s, n, p, q, f⟩) := by
    apply goodChars_append _ _ (valid_scheme_good s hs.2.2.1)
    apply goodChars_cons _ _ (by decide)
    exact goodChars_unsplitBody s n p q f hgn hgp hgq hgf
  rw [hbody, urlsplit_explicit s _ [] hs (goodChars_self _ hgood)]
  rw [unsplitBody_netloc_form s n p q f hnne]
  have hth := tail_head_netlocEnd p q f
  generalize hT : fixSlash p ++ ((if q ≠ [] then '?' :: q else []) ++
      (if f ≠ [] then '#' :: f else [])) = tl at hth ⊢
  have hsn : splitNetloc (n ++ tl) = (n, tl) := splitNetloc_append n tl hn hth
  have hnp : (if ('/' :: '/' :: (n ++ tl)).take 2 = ['/', '/']
      then splitNetloc (('/' :: '/' :: (n ++ tl)).drop 2)
      else ([], '/' :: '/' :: (n ++ tl))) = (n, tl) := by
    have ht2 : ('/' :: '/' :: (n ++ tl)).take 2 = ['/', '/'] := rfl
    rw [if_pos ht2]
    exact hsn
  rw [postSchemeSplit_eq _ _ n tl hnp]
  exact ⟨rfl, rfl⟩

/-! ### The rebuild of a split URL: the core of the idempotence proof -/

theorem urlunsplit_scheme_cons (s n p q f : List Char) (hs0 : s ≠ []) :
    urlunsplit ⟨s, n, p, q, f⟩ = s ++ ':' :: unsplitBody ⟨s, n, p, q, f⟩ := by
  rw [urlunsplit_body]
  show (if s ≠ [] then s ++ ':' :: unsplitBody ⟨s, n, p, q, f⟩
    else unsplitBody ⟨s, n, p, q, f⟩) = _
  rw [if_pos hs0]

theorem unsplitBody_nq (s n p : List Char) :
    unsplitBody ⟨s, n, p, [], []⟩ =
      (if n ≠ [] ∨ (s ≠ [] ∧ s ∈ usesNetloc ∧ p.take 2 ≠ ['/', '/'])
        then '/' :: '/' :: (n ++ fixSlash p) else p) := by
  simp [unsplitBody]

theorem unsplitBody_q (s n p q : List Char) (hq : q ≠ []) :
    unsplitBody ⟨s, n, p, q, []⟩ =
      (if n ≠ [] ∨ (s ≠ [] ∧ s ∈ usesNetloc ∧ p.take 2 ≠ ['/', '/'])
        then '/' :: '/' :: (n ++ fixSlash p) else p) ++ '?' :: q := by
  simp [unsplitBody, hq]

/-- Rebuilding the components that `urlsplit` extracted from
`s ++ ':' :: rest` reproduces the original string, provided the string
does not end in `'?'`, carries no `'#'`, and does not fall into either
authority-marker-losing family. -/
theorem reassemble_core (s rest : List Char)
    (hs0 : s ≠ [])
    (hh : '#' ∉ rest)
    (hq : rest.getLast? ≠ some '?')
    (hnet : s ∈ usesNetloc → rest.take 2 = ['/', '/'])
    (hm1 : s ∉ usesNetloc → rest.take 2 = ['/', '/'] →
      (postSchemeSplit s rest).netloc ≠ [])
    (hm2 : s ∈ usesNetloc → rest.take 4 ≠ ['/', '/', '/', '/']) :
    urlunsplit ⟨s, (postSchemeSplit s rest).netloc, (postSchemeSplit s rest).path,
      (postSchemeSplit s rest).query, []⟩ = s ++ ':' :: rest := by
  by_cases h2 : rest.take 2 = ['/', '/']
  · obtain ⟨r2, hrr⟩ := take_two_decomp rest '/' '/' h2
    subst hrr
    rcases hsn : splitNetloc r2 with ⟨n, mid⟩
    have hfstn : n = r2.takeWhile (fun c => !isNetlocEnd c) := by
      have h1 := congrArg Prod.fst hsn
      simpa [splitNetloc] using h1.symm
    have hsndm : mid = r2.dropWhile (fun c => !isNetlocEnd c) := by
      have h1 := congrArg Prod.snd hsn
      simpa [splitNetloc] using h1.symm
    have hr2 : r2 = n ++ mid := by
      rw [hfstn, hsndm]
      exact (List.takeWhile_append_dropWhile _ _).symm
    have hnd : ∀ c ∈ n, isNetlocEnd c = false := by
      intro c hc
      rw [hfstn] at hc
      have := (mem_takeWhile_sat _ _ c hc).1
      simpa using this
    have hmidh : mid.head?.all isNetlocEnd = true := by
      rw [hsndm]
      rcases hdw : (r2.dropWhile (fun c => !isNetlocEnd c)).head? with _ | c
      · rfl
      · have := head?_dropWhile_not _ _ _ hdw
        simpa using this
    have hhm : '#' ∉ mid := by
      intro hx
      apply hh
      rw [hr2]
      simp [hx]
    have hfp : splitOnce '#' mid = none := (splitOnce_none_iff _ _).mpr hhm
    have hP : postSchemeSplit s ('/' :: '/' :: r2) = ⟨s, n, (splitFragmentQuery mid).1,
        (splitFragmentQuery mid).2.1, (splitFragmentQuery mid).2.2⟩ := by
      apply postSchemeSplit_eq
      have ht2 : ('/' :: '/' :: r2).take 2 = ['/', '/'] := rfl
      rw [if_pos ht2]
      exact hsn
    rcases hqp : splitOnce '?' mid with _ | ⟨pa, qu⟩
    · have hfq : splitFragmentQuery mid = (mid, [], []) := by
        simp only [splitFragmentQuery, hfp, hqp]
      have hmh : mid = [] ∨ mid.head? = some '/' := by
        rcases hmd : mid with _ | ⟨c, cs⟩
        · exact Or.inl rfl
        · right
          have h5 := hmidh
          rw [hmd] at h5
          have hend : isNetlocEnd c = true := by simpa using h5
          have hcq : c ≠ '?' := by
            intro hcc
            exact ((splitOnce_none_iff '?' mid).mp hqp) (by rw [hmd, hcc]; simp)
          have hch : c ≠ '#' := by
            intro hcc
            exact hhm (by rw [hmd, hcc]; simp)
          have hcs : c = '/' := by
            simp only [isNetlocEnd, Bool.or_eq_true, decide_eq_true_eq] at hend
            rcases hend with (h | h) | h
            · exact h
            · exact absurd h hcq
            · exact absurd h hch
          rw [hcs]
          rfl
      have hfix : fixSlash mid = mid := by
        rcases hmh with h | h
        · rw [h, fixSlash_nil]
        · exact fixSlash_of_head mid h
      have hcond : n ≠ [] ∨ (s ≠ [] ∧ s ∈ usesNetloc ∧ mid.take 2 ≠ ['/', '/']) := by
        by_cases hn0 : n = []
        · right
          have hmid_r2 : mid = r2 := by
            rw [hn0] at hr2
            simpa using hr2.symm
          by_cases hsN : s ∈ usesNetloc
          · refine ⟨hs0, hsN, ?_⟩
            intro hcc
            obtain ⟨t, hpt⟩ := take_two_decomp mid '/' '/' hcc
            apply hm2 hsN
            have hr2t : r2 = '/' :: '/' :: t := by rw [← hmid_r2, hpt]
            show ('/' :: '/' :: r2).take 4 = ['/', '/', '/', '/']
            rw [hr2t]
            rfl
          · exfalso
            exact hm1 hsN rfl (by rw [hP]; exact hn0)
        · exact Or.inl hn0
      rw [hP, hfq]
      show urlunsplit ⟨s, n, mid, [], []⟩ = s ++ ':' :: ('/' :: '/' :: r2)
      rw [urlunsplit_scheme_cons s n mid [] [] hs0, unsplitBody_nq, if_pos hcond, hfix,
        hr2]
    · obtain ⟨hdec, hnq⟩ := splitOnce_some_decomp '?' mid _ hqp
      have hdec2 : mid = pa ++ '?' :: qu := hdec
      have hqune : qu ≠ [] := by
        intro hq0
        subst hq0
        apply hq
        have hre : ('/' :: '/' :: r2) = ('/' :: '/' :: (n ++ pa)) ++ ['?'] := by
          rw [hr2, hdec2]
          simp
        rw [hre]
        exact List.getLast?_concat _
      have hfq : splitFragmentQuery mid = (pa, qu, []) := by
        simp only [splitFragmentQuery, hfp, hqp]
      have hpah : pa = [] ∨ pa.head? = some '/' := by
        rcases hpd : pa with _ | ⟨c, cs⟩
        · exact Or.inl rfl
        · right
          have hmh2 : mid.head? = some c := by rw [hdec2, hpd]; rfl
          have h5 := hmidh
          rw [hmh2] at h5
          have hend : isNetlocEnd c = true := by simpa using h5
          have hcq : c ≠ '?' := by
            intro hcc
            exact hnq (by rw [hpd, hcc]; simp)
          have hch : c ≠ '#' := by
            intro hcc
            exact hhm (by rw [hdec2, hpd, hcc]; simp)
          have hcs : c = '/' := by
            simp only [isNetlocEnd, Bool.or_eq_true, decide_eq_true_eq] at hend
            rcases hend with (h | h) | h
            · exact h
            · exact absurd h hcq
            · exact absurd h hch
          rw [hcs]
          rfl
      have hfix : fixSlash pa = pa := by
        rcases hpah with h | h
        · rw [h, fixSlash_nil]
        · exact fixSlash_of_head pa h
      have hcond : n ≠ [] ∨ (s ≠ [] ∧ s ∈ usesNetloc ∧ pa.take 2 ≠ ['/', '/']) := by
        by_cases hn0 : n = []
        · right
          have hmid_r2 : mid = r2 := by
            rw [hn0] at hr2
            simpa using hr2.symm
          by_cases hsN : s ∈ usesNetloc
          · refine ⟨hs0, hsN, ?_⟩
            intro hcc
            obtain ⟨t, hpt⟩ := take_two_decomp pa '/' '/' hcc
            apply hm2 hsN
            have hr2t : r2 = '/' :: '/' :: (t ++ '?' :: qu) := by
              rw [← hmid_r2, hdec2, hpt]
              rfl
            show ('/' :: '/' :: r2).take 4 = ['/', '/', '/', '/']
            rw [hr2t]
            rfl
          · exfalso
            exact hm1 hsN rfl (by rw [hP]; exact hn0)
        · exact Or.inl hn0
      rw [hP, hfq]
      show urlunsplit ⟨s, n, pa, qu, []⟩ = s ++ ':' :: ('/' :: '/' :: r2)
      rw [urlunsplit_scheme_cons s n pa qu [] hs0, unsplitBody_q s n pa qu hqune,
        if_pos hcond, hfix, hr2, hdec2]
      simp
  · have hsN : s ∉ usesNetloc := fun h => h2 (hnet h)
    have hP : postSchemeSplit s rest = ⟨s, [], (splitFragmentQuery rest).1,
        (splitFragmentQuery rest).2.1, (splitFragmentQuery rest).2.2⟩ := by
      apply postSchemeSplit_eq
      rw [if_neg h2]
    have hfp : splitOnce '#' rest = none := (splitOnce_none_iff _ _).mpr hh
    rcases hqp : splitOnce '?' rest with _ | ⟨pa, qu⟩
    · have hfq : splitFragmentQuery rest = (rest, [], []) := by
        simp only [splitFragmentQuery, hfp, hqp]
      have hcond : ¬(([] : List Char) ≠ [] ∨
          (s ≠ [] ∧ s ∈ usesNetloc ∧ rest.take 2 ≠ ['/', '/'])) := by
        rintro (h | ⟨_, h, _⟩)
        · exact h rfl
        · exact hsN h
      rw [hP, hfq]
      show urlunsplit ⟨s, [], rest, [], []⟩ = s ++ ':' :: rest
      rw [urlunsplit_scheme_cons s [] rest [] [] hs0, unsplitBody_nq, if_neg hcond]
    · obtain ⟨hdec, hnq⟩ := splitOnce_some_decomp '?' rest _ hqp
      have hdec2 : rest = pa ++ '?' :: qu := hdec
      have hqune : qu ≠ [] := by
        intro h0
        subst h0
        apply hq
        rw [hdec2]
        exact List.getLast?_concat _
      have hfq : splitFragmentQuery rest = (pa, qu, []) := by
        simp only [splitFragmentQuery, hfp, hqp]
      have hcond : ¬(([] : List Char) ≠ [] ∨
          (s ≠ [] ∧ s ∈ usesNetloc ∧ pa.take 2 ≠ ['/', '/'])) := by
        rintro (h | ⟨_, h, _⟩)
        · exact h rfl
        · exact hsN h
      rw [hP, hfq]
      show urlunsplit ⟨s, [], pa, qu, []⟩ = s ++ ':' :: rest
      rw [urlunsplit_scheme_cons s [] pa qu [] hs0, unsplitBody_q s [] pa qu hqune,
        if_neg hcond, hdec2]

/-! ### `urljoin` branch equations -/

theorem urljoin_mismatch (base url : List Char) (hb : ¬ base = []) (hu : ¬ url = [])
    (h : (urlparse url (urlparse base []).scheme).scheme ≠ (urlparse base []).scheme ∨
      (urlparse url (urlparse base []).scheme).scheme ∉ usesRelative) :
    urljoin base url = url := by
  unfold urljoin
  rw [if_neg hb, if_neg hu, if_pos h]

theorem urljoin_netloc (base url : List Char) (hb : ¬ base = []) (hu : ¬ url = [])
    (h1 : ¬((urlparse url (urlparse base []).scheme).scheme ≠ (urlparse base []).scheme ∨
      (urlparse url (urlparse base []).scheme).scheme ∉ usesRelative))
    (h2 : (urlparse url (urlparse base []).scheme).scheme ∈ usesNetloc ∧
      (urlparse url (urlparse base []).scheme).netloc ≠ []) :
    urljoin base url = urlunparse (urlparse url (urlparse base []).scheme) := by
  unfold urljoin
  rw [if_neg hb, if_neg hu, if_neg h1, if_pos h2]

/-- A lone `scheme:` rebuilds to `scheme://` (when the scheme uses a
netloc), which the trailing-slash strip reduces back to `scheme:`. -/
theorem strip_unsplit_nil (s : List Char) (hs0 : s ≠ []) :
    rstripSlashL (urlunsplit ⟨s, [], [], [], []⟩) = s ++ [':'] := by
  rw [urlunsplit_scheme_cons s [] [] [] [] hs0, unsplitBody_nq]
  by_cases h : s ∈ usesNetloc
  · rw [if_pos (Or.inr ⟨hs0, h, by decide⟩)]
    have he : s ++ ':' :: ('/' :: '/' :: ([] ++ fixSlash [])) =
        (s ++ [':']) ++ List.replicate 2 '/' := by
      rw [fixSlash_nil]
      simp [List.replicate]
    rw [he, rstripSlashL_append_slashes]
    exact rstripSlashL_eq_self _ (by rw [List.getLast?_concat]; simp)
  · rw [if_neg (fun hcc => hcc.elim (fun hc => hc rfl) (fun hcx => h hcx.2.1))]
    exact rstripSlashL_eq_self _ (by rw [List.getLast?_concat]; simp)

/-- Any URL in normal form (explicit lower-case scheme, clean characters,
no fragment, no trailing `'/'` or `'?'`, a stable `;params` split, and
no authority-marker-losing shape) is a fixed point of the crawler's
normalization pipeline. -/
theorem normalize_fixpoint (b o s rest : List Char)
    (hb : ¬ b = [])
    (ho : o = s ++ ':' :: rest)
    (hs : validLowerScheme s)
    (hcl : removeUnsafeBytes o = o)
    (hh : '#' ∉ o)
    (hsl : o.getLast? ≠ some '/')
    (hq : o.getLast? ≠ some '?')
    (hpp : paramsRejoin s (urlsplit o []).path = (urlsplit o []).path)
    (hm1 : s ∉ usesNetloc → rest.take 2 = ['/', '/'] → (urlsplit o []).netloc ≠ [])
    (hm2 : s ∈ usesNetloc → rest.take 4 ≠ ['/', '/', '/', '/'])
    (hnet : s ∈ usesNetloc → rest = [] ∨ rest.take 2 = ['/', '/'])
    (hrel : s = (urlparse b []).scheme →
      s ∈ usesRelative ∧ s ∈ usesNetloc ∧ (urlsplit o []).netloc ≠ []) :
    normalizeL b o = o := by
  subst ho
  have hsplitd : ∀ d, urlsplit (s ++ ':' :: rest) d = postSchemeSplit s rest :=
    fun d => urlsplit_explicit s rest d hs hcl
  have hsplit := hsplitd []
  rw [hsplit] at hpp hm1
  have hform : s ++ ':' :: rest = (s ++ [':']) ++ rest := by simp
  have hrest_ne : '#' ∉ rest := fun hx => hh (by simp [hx])
  have hdf : defragmentL (s ++ ':' :: rest) =
      urlunsplit ⟨s, (postSchemeSplit s rest).netloc, (postSchemeSplit s rest).path,
        (postSchemeSplit s rest).query, []⟩ := by
    rw [defrag_eq (s ++ ':' :: rest), hsplit]
    have hsch : (postSchemeSplit s rest).scheme = s := rfl
    rw [hsch, hpp]
  by_cases hcore : rest = []
  · subst hcore
    have hsne : s ≠ (urlparse b []).scheme := by
      intro hcc
      have hx := (hrel hcc).2.2
      rw [hsplit] at hx
      exact hx rfl
    have hjm : urljoin b (s ++ ':' :: []) = s ++ ':' :: [] := by
      apply urljoin_mismatch b _ hb (by simp)
      left
      rw [(urlparse_comp _ _).1, hsplitd _]
      exact hsne
    show rstripSlashL (defragmentL (urljoin b (s ++ ':' :: []))) = s ++ ':' :: []
    rw [hjm, hdf]
    show rstripSlashL (urlunsplit ⟨s, [], [], [], []⟩) = s ++ [':']
    exact strip_unsplit_nil s hs.1
  · have hqrest : rest.getLast? ≠ some '?' := by
      intro hcc
      apply hq
      rw [hform, List.getLast?_append_of_ne_nil _ hcore]
      exact hcc
    have hslrest : rest.getLast? ≠ some '/' := by
      intro hcc
      apply hsl
      rw [hform, List.getLast?_append_of_ne_nil _ hcore]
      exact hcc
    have hcnet : s ∈ usesNetloc → rest.take 2 = ['/', '/'] := by
      intro h
      rcases hnet h with h0 | h0
      · exact absurd h0 hcore
      · exact h0
    have hCORE := reassemble_core s rest hs.1 hrest_ne hqrest hcnet hm1 hm2
    have hdfo : defragmentL (s ++ ':' :: rest) = s ++ ':' :: rest := by
      rw [hdf]
      exact hCORE
    by_cases hbs : s = (urlparse b []).scheme
    · obtain ⟨hsRel, hsN, hnloc⟩ := hrel hbs
      rw [hsplit] at hnloc
      have hjn : urljoin b (s ++ ':' :: rest) =
          urlunparse (urlparse (s ++ ':' :: rest) (urlparse b []).scheme) := by
        apply urljoin_netloc b _ hb (by simp)
        · push_neg
          constructor
          · rw [(urlparse_comp _ _).1, hsplitd _]
            exact hbs
          · rw [(urlparse_comp _ _).1, hsplitd _]
            exact hsRel
        · constructor
          · rw [(urlparse_comp _ _).1, hsplitd _]
            exact hsN
          · rw [(urlparse_comp _ _).2.1, hsplitd _]
            exact hnloc
      have hup : urlunparse (urlparse (s ++ ':' :: rest) (urlparse b []).scheme) =
          s ++ ':' :: rest := by
        rw [urlunparse_urlparse, hsplitd _]
        have hfragnil : (postSchemeSplit s rest).fragment = [] :=
          postSchemeSplit_frag_nil s rest hrest_ne
        have hsch : (postSchemeSplit s rest).scheme = s := rfl
        rw [hsch, hpp, hfragnil]
        exact hCORE
      show rstripSlashL (defragmentL (urljoin b (s ++ ':' :: rest))) = s ++ ':' :: rest
      rw [hjn, hup, hdfo]
      exact rstripSlashL_eq_self _ hsl
    · have hjm : urljoin b (s ++ ':' :: rest) = s ++ ':' :: rest := by
        apply urljoin_mismatch b _ hb (by simp)
        left
        rw [(urlparse_comp _ _).1, hsplitd _]
        exact hbs
      show rstripSlashL (defragmentL (urljoin b (s ++ ':' :: rest))) = s ++ ':' :: rest
      rw [hjm, hdfo]
      exact rstripSlashL_eq_self _ hsl

/-! ### Component facts and branch equations for the output analysis -/

theorem urlsplit_netloc_facts (u d : List Char) :
    ∀ c ∈ (urlsplit u d).netloc, isNetlocEnd c = false := by
  rw [urlsplit_eq]
  exact fun c hc => ((postSchemeSplit_facts _ _).1 c hc).1

theorem urlsplit_path_facts (u d : List Char) :
    ∀ c ∈ (urlsplit u d).path, c ≠ '?' ∧ c ≠ '#' := by
  rw [urlsplit_eq]
  exact fun c hc => ⟨((postSchemeSplit_facts _ _).2.1 c hc).1,
    ((postSchemeSplit_facts _ _).2.1 c hc).2.1⟩

theorem urlsplit_query_facts (u d : List Char) :
    ∀ c ∈ (urlsplit u d).query, c ≠ '#' := by
  rw [urlsplit_eq]
  exact fun c hc => ((postSchemeSplit_facts _ _).2.2 c hc).1

theorem urlparse_path_params_good (u d : List Char) :
    goodChars (urlparse u d).path ∧ goodChars (urlparse u d).params := by
  have hsg := (urlsplit_good u d).2.2.1
  by_cases h : (urlsplit u d).scheme ∈ usesParams ∧ ';' ∈ (urlsplit u d).path
  · have hp : urlparse u d = ⟨(urlsplit u d).scheme, (urlsplit u d).netloc,
        (splitparams (urlsplit u d).path).1, (splitparams (urlsplit u d).path).2,
        (urlsplit u d).query, (urlsplit u d).fragment⟩ := by
      unfold urlparse
      rw [if_pos h]
    rw [hp]
    exact ⟨goodChars_of_sub _ _ (splitparams_sub _).1 hsg,
      goodChars_of_sub _ _ (splitparams_sub _).2 hsg⟩
  · have hp : urlparse u d = ⟨(urlsplit u d).scheme, (urlsplit u d).netloc,
        (urlsplit u d).path, [], (urlsplit u d).query, (urlsplit u d).fragment⟩ := by
      unfold urlparse
      rw [if_neg h]
    rw [hp]
    exact ⟨hsg, goodChars_nil⟩

theorem mem_joinSegments (bp up : List Char) :
    ∀ seg ∈ joinSegments bp up, ∀ c ∈ seg, c ∈ bp ∨ c ∈ up := by
  intro seg hseg c hc
  simp only [joinSegments] at hseg
  split_ifs at hseg with h1 h2
  · exact Or.inr (mem_splitAll '/' up seg hseg c hc)
  · have hseg2 := mem_filterMiddleSegs _ seg hseg
    rcases List.mem_append.mp hseg2 with h | h
    · exact Or.inl (mem_splitAll '/' bp seg (List.dropLast_subset _ h) c hc)
    · exact Or.inr (mem_splitAll '/' up seg h c hc)
  · have hseg2 := mem_filterMiddleSegs _ seg hseg
    rcases List.mem_append.mp hseg2 with h | h
    · exact Or.inl (mem_splitAll '/' bp seg h c hc)
    · exact Or.inr (mem_splitAll '/' up seg h c hc)

theorem joinPath_cases (bp up : List Char) :
    joinPath bp up = ['/'] ∨ ∃ res, (∀ seg ∈ res, seg ∈ joinSegments bp up ∨ seg = []) ∧
      joinPath bp up = List.intercalate ['/'] res := by
  simp only [joinPath]
  split_ifs with h1 h2 h3
  · exact Or.inl rfl
  · refine Or.inr ⟨resolveSegs (joinSegments bp up) ++ [[]], ?_, rfl⟩
    intro seg hseg
    rcases List.mem_append.mp hseg with h | h
    · exact Or.inl (mem_resolveSegs _ seg h)
    · simp only [List.mem_singleton] at h
      exact Or.inr h
  · exact Or.inl rfl
  · refine Or.inr ⟨resolveSegs (joinSegments bp up), ?_, rfl⟩
    intro seg hseg
    exact Or.inl (mem_resolveSegs _ seg hseg)

theorem joinPath_good (bp up : List Char) (hbp : goodChars bp) (hup : goodChars up) :
    goodChars (joinPath bp up) := by
  intro x hx
  rcases joinPath_cases bp up with h | ⟨res, hres, h⟩
  · rw [h] at hx
    have hxs : x = '/' := by simpa using hx
    subst hxs
    decide
  · rw [h] at hx
    rcases mem_intercalateSlash res x hx with hxs | ⟨seg, hseg, hxs⟩
    · subst hxs
      decide
    · rcases hres seg hseg with hsg | hsg
      · rcases mem_joinSegments bp up seg hsg x hxs with h2 | h2
        · exact hbp x h2
        · exact hup x h2
      · subst hsg
        cases hxs

theorem urljoin_empty_right (base : List Char) (hb : ¬ base = []) :
    urljoin base [] = base := by
  unfold urljoin
  rw [if_neg hb, if_pos rfl]

theorem urljoin_relative_empty (base url : List Char) (hb : ¬ base = []) (hu : ¬ url = [])
    (h1 : ¬((urlparse url (urlparse base []).scheme).scheme ≠ (urlparse base []).scheme ∨
      (urlparse url (urlparse base []).scheme).scheme ∉ usesRelative))
    (h2 : ¬((urlparse url (urlparse base []).scheme).scheme ∈ usesNetloc ∧
      (urlparse url (urlparse base []).scheme).netloc ≠ []))
    (h3 : (urlparse url (urlparse base []).scheme).path = [] ∧
      (urlparse url (urlparse base []).scheme).params = []) :
    urljoin base url = urlunparse ⟨(urlparse url (urlparse base []).scheme).scheme,
      (if (urlparse url (urlparse base []).scheme).scheme ∈ usesNetloc
        then (urlparse base []).netloc
        else (urlparse url (urlparse base []).scheme).netloc),
      (urlparse base []).path, (urlparse base []).params,
      (if (urlparse url (urlparse base []).scheme).query = []
        then (urlparse base []).query
        else (urlparse url (urlparse base []).scheme).query),
      (urlparse url (urlparse base []).scheme).fragment⟩ := by
  unfold urljoin
  rw [if_neg hb, if_neg hu, if_neg h1, if_neg h2, if_pos h3]

theorem urljoin_relative_join (base url : List Char) (hb : ¬ base = []) (hu : ¬ url = [])
    (h1 : ¬((urlparse url (urlparse base []).scheme).scheme ≠ (urlparse base []).scheme ∨
      (urlparse url (urlparse base []).scheme).scheme ∉ usesRelative))
    (h2 : ¬((urlparse url (urlparse base []).scheme).scheme ∈ usesNetloc ∧
      (urlparse url (urlparse base []).scheme).netloc ≠ []))
    (h3 : ¬((urlparse url (urlparse base []).scheme).path = [] ∧
      (urlparse url (urlparse base []).scheme).params = [])) :
    urljoin base url = urlunparse ⟨(urlparse url (urlparse base []).scheme).scheme,
      (if (urlparse url (urlparse base []).scheme).scheme ∈ usesNetloc
        then (urlparse base []).netloc
        else (urlparse url (urlparse base []).scheme).netloc),
      joinPath (urlparse base []).path (urlparse url (urlparse base []).scheme).path,
      (urlparse url (urlparse base []).scheme).params,
      (urlparse url (urlparse base []).scheme).query,
      (urlparse url (urlparse base []).scheme).fragment⟩ := by
  unfold urljoin
  rw [if_neg hb, if_neg hu, if_neg h1, if_neg h2, if_neg h3]

theorem urlunparse_eq (c : ParseResult) :
    urlunparse c = urlunsplit ⟨c.scheme, c.netloc,
      (if c.params ≠ [] then c.path ++ ';' :: c.params else c.path), c.query,
      c.fragment⟩ := rfl

theorem unsplitBody_nf (s n p q : List Char) :
    unsplitBody ⟨s, n, p, q, []⟩ =
      (if n ≠ [] ∨ (s ≠ [] ∧ s ∈ usesNetloc ∧ p.take 2 ≠ ['/', '/'])
        then '/' :: '/' :: (n ++ fixSlash p) else p) ++
      (if q ≠ [] then '?' :: q else []) := by
  simp [unsplitBody]

/-- Shape of a defragmented-and-stripped URL: it keeps the parsed scheme
as an explicit prefix, is clean, has no `'#'`, starts its remainder with
`//` (or loses it entirely) under a netloc scheme, and keeps a non-empty
netloc. -/
theorem defrag_strip_shape (y : List Char)
    (hvs : validLowerScheme (urlsplit y []).scheme) :
    ∃ R, rstripSlashL (defragmentL y) = (urlsplit y []).scheme ++ ':' :: R ∧
      removeUnsafeBytes (rstripSlashL (defragmentL y)) = rstripSlashL (defragmentL y) ∧
      '#' ∉ rstripSlashL (defragmentL y) ∧
      ((urlsplit y []).scheme ∈ usesNetloc → R = [] ∨ R.take 2 = ['/', '/']) ∧
      ((urlsplit y []).netloc ≠ [] →
        (urlsplit (rstripSlashL (defragmentL y)) []).netloc = (urlsplit y []).netloc) := by
  obtain ⟨hgs, hgn, hgp, hgq, hgf⟩ := urlsplit_good y []
  have hnd := urlsplit_netloc_facts y []
  have hpf := urlsplit_path_facts y []
  have hqf := urlsplit_query_facts y []
  have hdf := defrag_eq y
  set s0 := (urlsplit y []).scheme with hs0d
  set n0 := (urlsplit y []).netloc with hn0d
  set q0 := (urlsplit y []).query with hq0d
  set pj := paramsRejoin s0 (urlsplit y []).path with hpjd
  have hgpj : goodChars pj := goodChars_of_sub _ _ (paramsRejoin_sub _ _) hgp
  have hpjf : ∀ c ∈ pj, c ≠ '?' ∧ c ≠ '#' :=
    fun c hc => hpf c (paramsRejoin_sub _ _ c hc)
  have hs0ne : s0 ≠ [] := hvs.1
  have hbody : defragmentL y = s0 ++ ':' :: unsplitBody ⟨s0, n0, pj, q0, []⟩ := by
    rw [hdf]
    exact urlunsplit_scheme_cons s0 n0 pj q0 [] hs0ne
  set B0 := unsplitBody ⟨s0, n0, pj, q0, []⟩ with hB0d
  have hlast : (s0 ++ [':']).getLast? ≠ some '/' := by
    rw [List.getLast?_concat]
    simp
  have hstrip : rstripSlashL (defragmentL y) = s0 ++ ':' :: rstripSlashL B0 := by
    calc rstripSlashL (defragmentL y) = rstripSlashL ((s0 ++ [':']) ++ B0) := by
          rw [hbody]
          simp
      _ = (s0 ++ [':']) ++ rstripSlashL B0 := rstrip_append_keep _ _ hlast
      _ = s0 ++ ':' :: rstripSlashL B0 := by simp
  have hgB : goodChars B0 := goodChars_unsplitBody s0 n0 pj q0 [] hgn hgpj hgq goodChars_nil
  have hcln : goodChars (rstripSlashL (defragmentL y)) := by
    rw [hstrip]
    apply goodChars_append _ _ hgs
    apply goodChars_cons _ _ (by decide)
    exact goodChars_of_sub _ _ (rstrip_leading B0).subset hgB
  have hnoh : '#' ∉ rstripSlashL (defragmentL y) := by
    intro hmem
    rw [hstrip] at hmem
    rcases List.mem_append.mp hmem with h | h
    · exact (valid_scheme_spec _ hvs.2.2.1 '#' h).2.2.2.2 rfl
    rcases List.mem_cons.mp h with h | h
    · cases h
    have hB := (rstrip_leading B0).subset h
    rcases unsplitBody_sub _ '#' hB with h2 | h2 | h2 | h2 | h2 | ⟨h2, _⟩ | ⟨_, h2⟩
    · have := hnd '#' h2
      simp [isNetlocEnd] at this
    · exact (hpjf '#' h2).2 rfl
    · exact hqf '#' h2 rfl
    · cases h2
    · cases h2
    · cases h2
    · exact h2 rfl
  refine ⟨rstripSlashL B0, hstrip, goodChars_self _ hcln, hnoh, ?_, ?_⟩
  · intro hN
    have hB2 : B0.take 2 = ['/', '/'] := by
      by_cases hc1 : n0 ≠ [] ∨ (s0 ≠ [] ∧ s0 ∈ usesNetloc ∧ pj.take 2 ≠ ['/', '/'])
      · rw [hB0d, unsplitBody_nf, if_pos hc1]
        rfl
      · have hc2 := hc1
        push_neg at hc2
        have hpj2 := hc2.2 hs0ne hN
        obtain ⟨t, hpt⟩ := take_two_decomp _ _ _ hpj2
        rw [hB0d, unsplitBody_nf, if_neg hc1, hpt]
        rfl
    exact rstrip_take2 B0 hB2
  · intro hnne
    have hBn : B0 = '/' :: '/' :: (n0 ++ (fixSlash pj ++ ((if q0 ≠ [] then '?' :: q0
        else []) ++ (if ([] : List Char) ≠ [] then '#' :: ([] : List Char) else [])))) :=
      unsplitBody_netloc_form s0 n0 pj q0 [] hnne
    set TL := fixSlash pj ++ ((if q0 ≠ [] then '?' :: q0 else []) ++
      (if ([] : List Char) ≠ [] then '#' :: ([] : List Char) else [])) with hTLd
    have hnl : (['/', '/'] ++ n0).getLast? ≠ some '/' := by
      rw [List.getLast?_append_of_ne_nil _ hnne]
      intro hcc
      have hmemn := List.mem_of_mem_getLast? hcc
      have := hnd '/' hmemn
      simp [isNetlocEnd] at this
    have hRB : rstripSlashL B0 = (['/', '/'] ++ n0) ++ rstripSlashL TL := by
      rw [hBn, show ('/' :: '/' :: (n0 ++ TL) : List Char) = (['/', '/'] ++ n0) ++ TL
        by simp]
      exact rstrip_append_keep _ _ hnl
    have hth2 : (rstripSlashL TL).head?.all isNetlocEnd = true := by
      rcases rstrip_head? TL with h | h
      · rw [h]
        rfl
      · rw [h]
        exact tail_head_netlocEnd pj q0 []
    have ho2 : rstripSlashL (defragmentL y) =
        s0 ++ ':' :: ('/' :: '/' :: (n0 ++ rstripSlashL TL)) := by
      rw [hstrip, hRB]
      simp
    have hcl2 : removeUnsafeBytes (s0 ++ ':' :: ('/' :: '/' :: (n0 ++ rstripSlashL TL))) =
        s0 ++ ':' :: ('/' :: '/' :: (n0 ++ rstripSlashL TL)) := by
      rw [← ho2]
      exact goodChars_self _ hcln
    rw [ho2, urlsplit_explicit s0 _ [] hvs hcl2]
    have hsn : splitNetloc (n0 ++ rstripSlashL TL) = (n0, rstripSlashL TL) :=
      splitNetloc_append n0 _ hnd hth2
    have hnp : (if ('/' :: '/' :: (n0 ++ rstripSlashL TL)).take 2 = ['/', '/']
        then splitNetloc (('/' :: '/' :: (n0 ++ rstripSlashL TL)).drop 2)
        else ([], '/' :: '/' :: (n0 ++ rstripSlashL TL))) = (n0, rstripSlashL TL) := by
      have ht2 : ('/' :: '/' :: (n0 ++ rstripSlashL TL)).take 2 = ['/', '/'] := rfl
      rw [if_pos ht2]
      exact hsn
    rw [postSchemeSplit_eq _ _ n0 _ hnp]

theorem urlunparse_mk (sch n p prm q f : List Char) :
    urlunparse ⟨sch, n, p, prm, q, f⟩ =
      urlunsplit ⟨sch, n, (if prm ≠ [] then p ++ ';' :: prm else p), q, f⟩ := rfl

/-- Whatever `urljoin` returns against an `http`/`https` base with a
non-empty authority parses back with a valid lower-case scheme, and a
non-empty authority whenever its scheme matches the base scheme. -/
theorem urljoin_parse_facts (b u : List Char)
    (hbs : (urlparse b []).scheme = "http".toList ∨
      (urlparse b []).scheme = "https".toList)
    (hbn : (urlparse b []).netloc ≠ []) :
    validLowerScheme (urlsplit (urljoin b u) []).scheme ∧
    ((urlsplit (urljoin b u) []).scheme = (urlparse b []).scheme →
      (urlsplit (urljoin b u) []).netloc ≠ []) := by
  have hbsv : validLowerScheme (urlparse b []).scheme := by
    rcases hbs with h | h <;> rw [h] <;>
      exact ⟨by decide, by decide, by decide, by decide⟩
  have hbrel : (urlparse b []).scheme ∈ usesRelative := by
    rcases hbs with h | h <;> rw [h] <;> decide
  have hbnetl : (urlparse b []).scheme ∈ usesNetloc := by
    rcases hbs with h | h <;> rw [h] <;> decide
  have hbclean : removeUnsafeBytes (stripC0 (urlparse b []).scheme) =
      (urlparse b []).scheme := by
    rcases hbs with h | h <;> rw [h] <;> decide
  have hb : ¬ b = [] := by
    intro h
    rw [h] at hbn
    exact hbn rfl
  have hbps := (urlparse_comp b []).1
  have hbpn := (urlparse_comp b []).2.1
  have hgb := urlsplit_good b []
  have hgbp := urlparse_path_params_good b []
  have hbnlg : goodChars (urlparse b []).netloc := by
    rw [hbpn]
    exact hgb.2.1
  have hbqg : goodChars (urlparse b []).query := by
    rw [(urlparse_comp b []).2.2.1]
    exact hgb.2.2.2.1
  have hbnd : ∀ c ∈ (urlparse b []).netloc, isNetlocEnd c = false := by
    rw [hbpn]
    exact urlsplit_netloc_facts b []
  by_cases hu : u = []
  · rw [hu, urljoin_empty_right b hb]
    constructor
    · rw [← hbps]
      exact hbsv
    · intro _
      rw [← hbpn]
      exact hbn
  · by_cases hmm : (urlparse u (urlparse b []).scheme).scheme ≠ (urlparse b []).scheme ∨
        (urlparse u (urlparse b []).scheme).scheme ∉ usesRelative
    · rw [urljoin_mismatch b u hb hu hmm]
      have hpc := (urlparse_comp u (urlparse b []).scheme).1
      rcases urlsplit_dflt_scheme u (urlparse b []).scheme with h | ⟨hv, he⟩
      · exfalso
        rw [hbclean] at h
        rcases hmm with h2 | h2
        · exact h2 (by rw [hpc, h])
        · rw [hpc, h] at h2
          exact h2 hbrel
      · constructor
        · rw [← he]
          exact hv
        · intro hcc
          exfalso
          rcases hmm with h2 | h2
          · exact h2 (by rw [hpc, he, hcc])
          · rw [hpc, he, hcc] at h2
            exact h2 hbrel
    · have hsch : (urlparse u (urlparse b []).scheme).scheme = (urlparse b []).scheme := by
        by_contra hcc
        exact hmm (Or.inl hcc)
      have hvu : validLowerScheme (urlparse u (urlparse b []).scheme).scheme := by
        rw [hsch]
        exact hbsv
      obtain ⟨hgs2, hgn2, hgp2, hgq2, hgf2⟩ := urlsplit_good u (urlparse b []).scheme
      have hgup := urlparse_path_params_good u (urlparse b []).scheme
      have huqg : goodChars (urlparse u (urlparse b []).scheme).query := by
        rw [(urlparse_comp u (urlparse b []).scheme).2.2.1]
        exact hgq2
      have hufg : goodChars (urlparse u (urlparse b []).scheme).fragment := by
        rw [(urlparse_comp u (urlparse b []).scheme).2.2.2]
        exact hgf2
      by_cases hnb : (urlparse u (urlparse b []).scheme).scheme ∈ usesNetloc ∧
          (urlparse u (urlparse b []).scheme).netloc ≠ []
      · rw [urljoin_netloc b u hb hu hmm hnb, urlunparse_urlparse u (urlparse b []).scheme]
        have hSv : validLowerScheme (urlsplit u (urlparse b []).scheme).scheme := by
          rw [(urlparse_comp u (urlparse b []).scheme).1] at hvu
          exact hvu
        have hSn : (urlsplit u (urlparse b []).scheme).netloc ≠ [] := by
          rw [← (urlparse_comp u (urlparse b []).scheme).2.1]
          exact hnb.2
        obtain ⟨hySch, hyN⟩ := urlsplit_unsplit_netloc
          (urlsplit u (urlparse b []).scheme).scheme
          (urlsplit u (urlparse b []).scheme).netloc
          (paramsRejoin (urlsplit u (urlparse b []).scheme).scheme
            (urlsplit u (urlparse b []).scheme).path)
          (urlsplit u (urlparse b []).scheme).query
          (urlsplit u (urlparse b []).scheme).fragment
          hSv hgn2 (goodChars_of_sub _ _ (paramsRejoin_sub _ _) hgp2) hgq2 hgf2
          (urlsplit_netloc_facts u (urlparse b []).scheme) hSn
        constructor
        · rw [hySch]
          exact hSv
        · intro _
          rw [hyN]
          exact hSn
      · have hschN : (urlparse u (urlparse b []).scheme).scheme ∈ usesNetloc := by
          rw [hsch]
          exact hbnetl
        have hnlc : (if (urlparse u (urlparse b []).scheme).scheme ∈ usesNetloc
            then (urlparse b []).netloc
            else (urlparse u (urlparse b []).scheme).netloc) = (urlparse b []).netloc :=
          if_pos hschN
        by_cases hpe : (urlparse u (urlparse b []).scheme).path = [] ∧
            (urlparse u (urlparse b []).scheme).params = []
        · rw [urljoin_relative_empty b u hb hu hmm hnb hpe, hnlc, urlunparse_mk]
          have hgP : goodChars (if (urlparse b []).params ≠ []
              then (urlparse b []).path ++ ';' :: (urlparse b []).params
              else (urlparse b []).path) := by
            split_ifs with h
            · exact goodChars_append _ _ hgbp.1 (goodChars_cons _ _ (by decide) hgbp.2)
            · exact hgbp.1
          have hgQ : goodChars (if (urlparse u (urlparse b []).scheme).query = []
              then (urlparse b []).query
              else (urlparse u (urlparse b []).scheme).query) := by
            split_ifs with h
            · exact hbqg
            · exact huqg
          obtain ⟨hySch, hyN⟩ := urlsplit_unsplit_netloc
            (urlparse u (urlparse b []).scheme).scheme (urlparse b []).netloc _ _
            (urlparse u (urlparse b []).scheme).fragment
            hvu hbnlg hgP hgQ hufg hbnd hbn
          constructor
          · rw [hySch]
            exact hvu
          · intro _
            rw [hyN]
            exact hbn
        · rw [urljoin_relative_join b u hb hu hmm hnb hpe, hnlc, urlunparse_mk]
          have hgJ : goodChars (joinPath (urlparse b []).path
              (urlparse u (urlparse b []).scheme).path) :=
            joinPath_good _ _ hgbp.1 hgup.1
          have hgP : goodChars (if (urlparse u (urlparse b []).scheme).params ≠ []
              then joinPath (urlparse b []).path
                  (urlparse u (urlparse b []).scheme).path ++
                ';' :: (urlparse u (urlparse b []).scheme).params
              else joinPath (urlparse b []).path
                (urlparse u (urlparse b []).scheme).path) := by
            split_ifs with h
            · exact goodChars_append _ _ hgJ (goodChars_cons _ _ (by decide) hgup.2)
            · exact hgJ
          obtain ⟨hySch, hyN⟩ := urlsplit_unsplit_netloc
            (urlparse u (urlparse b []).scheme).scheme (urlparse b []).netloc _
            (urlparse u (urlparse b []).scheme).query
            (urlparse u (urlparse b []).scheme).fragment
            hvu hbnlg hgP huqg hufg hbnd hbn
          constructor
          · rw [hySch]
            exact hvu
          · intro _
            rw [hyN]
            exact hbn

/-- C8 (amended): URL normalization is NOT idempotent in general (see
the counterexample), but it is idempotent whenever the once-normalized
URL avoids the four failure families: for a base whose parse has an
`http`/`https` scheme and a non-empty authority, and a link whose
normalization (i) does not end in `'?'`, (ii) has a path whose `;params`
split is stable under the `geturl` rejoin (its last segment does not end
in a bare `';'`), and (iii) does not lose its authority marker on a
reparse (no empty authority under a non-netloc scheme and no
quadruple-slash under a netloc scheme), normalizing twice equals
normalizing once. -/
theorem normalize_idempotent (b u : List Char)
    (hbs : (urlparse b []).scheme = "http".toList ∨
      (urlparse b []).scheme = "https".toList)
    (hbn : (urlparse b []).netloc ≠ [])
    (hq : (normalizeL b u).getLast? ≠ some '?')
    (hpp : paramsRejoin (urlsplit (normalizeL b u) []).scheme
      (urlsplit (normalizeL b u) []).path = (urlsplit (normalizeL b u) []).path)
    (hm : ¬ dropsAuthorityMarker (normalizeL b u)) :
    normalizeL b (normalizeL b u) = normalizeL b u := by
  obtain ⟨hys, hyn⟩ := urljoin_parse_facts b u hbs hbn
  obtain ⟨R, hoR, hclean, hnoh, hnet0, hnl0⟩ := defrag_strip_shape (urljoin b u) hys
  have hoeq : normalizeL b u = rstripSlashL (defragmentL (urljoin b u)) := rfl
  have hb : ¬ b = [] := by
    intro h
    rw [h] at hbn
    exact hbn rfl
  have hsl : (normalizeL b u).getLast? ≠ some '/' := by
    rw [hoeq]
    exact rstripSlashL_getLast _
  have hcln : removeUnsafeBytes (normalizeL b u) = normalizeL b u := by
    rw [hoeq]
    exact hclean
  have hnoh2 : '#' ∉ normalizeL b u := by
    rw [hoeq]
    exact hnoh
  have hoR2 : normalizeL b u = (urlsplit (urljoin b u) []).scheme ++ ':' :: R := by
    rw [hoeq]
    exact hoR
  have hps : urlsplit (normalizeL b u) [] =
      postSchemeSplit (urlsplit (urljoin b u) []).scheme R := by
    rw [hoR2]
    exact urlsplit_explicit _ R [] hys (by rw [← hoR2]; exact hcln)
  have hosch : (urlsplit (normalizeL b u) []).scheme =
      (urlsplit (urljoin b u) []).scheme := by
    rw [hps]
    rfl
  rw [hosch] at hpp
  have hsp : splitScheme [] (normalizeL b u) = ((urlsplit (urljoin b u) []).scheme, R) := by
    rw [hoR2]
    exact splitScheme_explicit [] _ R hys
  have hm1 : (urlsplit (urljoin b u) []).scheme ∉ usesNetloc → R.take 2 = ['/', '/'] →
      (urlsplit (normalizeL b u) []).netloc ≠ [] := by
    intro h1 h2 h3
    apply hm
    unfold dropsAuthorityMarker
    rw [hsp]
    exact Or.inl ⟨h1, h2, h3⟩
  have hm2 : (urlsplit (urljoin b u) []).scheme ∈ usesNetloc →
      R.take 4 ≠ ['/', '/', '/', '/'] := by
    intro h1 h2
    apply hm
    unfold dropsAuthorityMarker
    rw [hsp]
    exact Or.inr ⟨h1, h2⟩
  have hrel : (urlsplit (urljoin b u) []).scheme = (urlparse b []).scheme →
      (urlsplit (urljoin b u) []).scheme ∈ usesRelative ∧
      (urlsplit (urljoin b u) []).scheme ∈ usesNetloc ∧
      (urlsplit (normalizeL b u) []).netloc ≠ [] := by
    intro hcc
    have hn1 := hyn hcc
    have hn2 := hnl0 hn1
    refine ⟨?_, ?_, ?_⟩
    · rw [hcc]
      rcases hbs with h | h <;> rw [h] <;> decide
    · rw [hcc]
      rcases hbs with h | h <;> rw [h] <;> decide
    · rw [hoeq, hn2]
      exact hn1
  exact normalize_fixpoint b (normalizeL b u) (urlsplit (urljoin b u) []).scheme R
    hb hoR2 hys hcln hnoh2 hsl hq hpp hm1 hm2 hnet0 hrel

/-- Witness for C8 (amended) at the crawler's own base page and the
relative link `/x`. -/
theorem normalize_idempotent_witness :
    ((urlparse "http://seed.example/page".toList []).scheme = "http".toList ∨
      (urlparse "http://seed.example/page".toList []).scheme = "https".toList) ∧
    (urlparse "http://seed.example/page".toList []).netloc ≠ [] ∧
    normalizeL "http://seed.example/page".toList
        (normalizeL "http://seed.example/page".toList "/x".toList) =
      normalizeL "http://seed.example/page".toList "/x".toList :=
  ⟨Or.inl (by decide), by decide,
    normalize_idempotent "http://seed.example/page".toList "/x".toList
      (Or.inl (by decide)) (by decide) (by decide) (by decide) (by decide)⟩

/-- C8 counterexample: against the crawler's base page, the link
`http://h/p?/` first normalizes to `http://h/p?` (the trailing-slash
strip eats into the query), and normalizing that drops the now-empty
query, yielding `http://h/p`. -/
theorem normalize_idempotent_counterexample :
    normalizeLink "http://seed.example/page"
        (normalizeLink "http://seed.example/page" "http://h/p?/") ≠
      normalizeLink "http://seed.example/page" "http://h/p?/" := by
  decide

end Milestone1
